import Mathlib

/-!
# Timing-wheel buckets and nodes (`time_wheel_node.go`)

A shallow embedding of the bucket / node layer of the timing wheel:
`newTimeHead`, `genVersionHeight`, `Time.lockPushBack`, `timeNode.Stop`
and `timeNode.Reset`.

Pointers become indices into an arena (`State`): a `*Time` is an index into
`State.heads`, a `*timeNode` an index into `State.nodes`, a `*timeWheel` an
index into `State.wheels`; `nil` is `none`.  Machine integers are `Nat` / `Int`
with explicit wrap-around.  A call that does not return normally yields a
`Fault`: a nil dereference panics, and locking a `sync.Mutex` that is already
held blocks for ever when no other thread can release it.

The intrusive list package `github.com/antlabs/stl/list` and the wheel driver
(`timeWheel`, its `add`) are not among the sources; the definitions that stand
for them say so.  Lists are kept at the level of the `Next` / `Prev` links, so
that an operation handed a node with stale links does what the links say.
-/

namespace TimeWheel

/-- Constant `haveStop = uint32(1)`. -/
def haveStop : Nat := 1

/-- Ways in which a call fails to return. -/
inductive Fault where
  | nilDeref
  | deadlock
  | unlockOfUnlocked
deriving DecidableEq, Repr

deriving instance DecidableEq for Except

/-- The address of a `list.Head`: the one embedded in the `Time` at index `b`
(`&t.Head`) or the one embedded in the `timeNode` at index `n` (`&node.Head`). -/
inductive Ptr where
  | time (b : Nat)
  | node (n : Nat)
deriving DecidableEq, Repr

/-- Modelled from the spec: type `list.Head` of package
`github.com/antlabs/stl/list`, which is not part of the sources.  The spec
speaks of a doubly-linked list with prev / next linkage fields in every node;
this is the link pair of a circular doubly-linked list with a sentinel head.
Only the links are represented. -/
structure list.Head where
  Next : Option Ptr := none
  Prev : Option Ptr := none
deriving DecidableEq, Repr

/-- Struct `timeNode`.  The `callback` closure is not represented. -/
structure timeNode where
  expire : Nat := 0
  userExpire : Int := 0
  stop : Nat := 0
  list : Option Nat := none
  version : Nat := 0
  isSchedule : Bool := false
  root : Option Nat := none
  Head : TimeWheel.list.Head := {}
deriving DecidableEq, Repr

/-- Struct `Time`, a bucket: the `sync.Mutex` (`locked`), the `version` word and,
of the embedded `timeNode`, the `list.Head` that anchors the bucket's list (the
other fields of the embedded node are never used through a `*Time`). -/
structure Time where
  locked : Bool := false
  version : Nat := 0
  Head : list.Head := {}
deriving DecidableEq, Repr

/-- Modelled from the spec: struct `timeWheel` is not part of the sources; of
it only the current tick `jiffies` is read here. -/
structure timeWheel where
  jiffies : Nat := 0
deriving DecidableEq, Repr

/-- The heap: every `Time`, `timeNode` and `timeWheel` that has been allocated. -/
structure State where
  heads : List Time := []
  nodes : List timeNode := []
  wheels : List timeWheel := []
deriving DecidableEq, Repr

/-- Update the fields of the `Time` at `b`. -/
def State.modifyTime (s : State) (b : Nat) (f : Time → Time) : State :=
  { s with heads := s.heads.modify f b }

/-- Update the fields of the `timeNode` at `n`. -/
def State.modifyNode (s : State) (n : Nat) (f : timeNode → timeNode) : State :=
  { s with nodes := s.nodes.modify f n }

/-- A node without its links. -/
def timeNode.data (nd : timeNode) : timeNode :=
  { nd with Head := {} }

/-- A bucket without its links. -/
def Time.data (T : Time) : Time :=
  { T with Head := {} }

/-- The heap without any link: what the list operations leave alone. -/
def State.data (s : State) : State :=
  { heads := s.heads.map Time.data, nodes := s.nodes.map timeNode.data, wheels := s.wheels }

/-- Whether a `list.Head` lives at the address. -/
def State.valid (s : State) : Ptr → Bool
  | .time b => decide (b < s.heads.length)
  | .node n => decide (n < s.nodes.length)

/-- Read `p.Next`; nothing is read through a dangling address. -/
def State.next (s : State) : Ptr → Option Ptr
  | .time b => (s.heads[b]?).bind (fun T => T.Head.Next)
  | .node n => (s.nodes[n]?).bind (fun nd => nd.Head.Next)

/-- Read `p.Prev`. -/
def State.prev (s : State) : Ptr → Option Ptr
  | .time b => (s.heads[b]?).bind (fun T => T.Head.Prev)
  | .node n => (s.nodes[n]?).bind (fun nd => nd.Head.Prev)

/-- The heap after `p.Next = q`. -/
def State.writeNext (s : State) (p : Ptr) (q : Option Ptr) : State :=
  match p with
  | .time b => s.modifyTime b (fun T => { T with Head := { T.Head with Next := q } })
  | .node n => s.modifyNode n (fun nd => { nd with Head := { nd.Head with Next := q } })

/-- The heap after `p.Prev = q`. -/
def State.writePrev (s : State) (p : Ptr) (q : Option Ptr) : State :=
  match p with
  | .time b => s.modifyTime b (fun T => { T with Head := { T.Head with Prev := q } })
  | .node n => s.modifyNode n (fun nd => { nd with Head := { nd.Head with Prev := q } })

/-- Statement `p.Next = q` through a pointer `p` that may be nil. -/
def State.setNext (s : State) (p q : Option Ptr) : Except Fault State :=
  match p with
  | none => .error .nilDeref
  | some p => if s.valid p then .ok (s.writeNext p q) else .error .nilDeref

/-- Statement `p.Prev = q` through a pointer `p` that may be nil. -/
def State.setPrev (s : State) (p q : Option Ptr) : Except Fault State :=
  match p with
  | none => .error .nilDeref
  | some p => if s.valid p then .ok (s.writePrev p q) else .error .nilDeref

/-- Modelled from the spec: `list.Head.Init` is not part of the sources; it makes
the head at address `self` an empty circular list, both links pointing to
itself. -/
def list.Head.Init (self : Ptr) : list.Head :=
  { Next := some self, Prev := some self }

/-- Modelled from the spec: the insertion step of the list package, not part of
the sources: link `new` between the neighbours `prev` and `next`. -/
def list.Head.add (s : State) (new prev next : Option Ptr) : Except Fault State :=
  match s.setPrev next new with
  | .error e => .error e
  | .ok s1 =>
    match s1.setNext new next with
    | .error e => .error e
    | .ok s2 =>
      match s2.setPrev new prev with
      | .error e => .error e
      | .ok s3 => s3.setNext prev new

/-- Modelled from the spec: `list.Head.AddTail` is not part of the sources; it
appends `new` to the list anchored at `head`, that is, links it between the
head's `Prev` and the head. -/
def list.Head.AddTail (s : State) (head new : Ptr) : Except Fault State :=
  if s.valid head then list.Head.add s (some new) (s.prev head) (some head)
  else .error .nilDeref

/-- Modelled from the spec: `list.Head.Del` is not part of the sources; it
unlinks `entry` by joining the neighbours that `entry`'s own links name, and
leaves `entry`'s links as they are.  The receiver `head` plays no part in the
relinking. -/
def list.Head.Del (s : State) (_head entry : Ptr) : Except Fault State :=
  if s.valid entry then
    match s.setPrev (s.next entry) (s.prev entry) with
    | .error e => .error e
    | .ok s1 => s1.setNext (s.prev entry) (s.next entry)
  else .error .nilDeref

/-- The 64-bit word size. -/
def word64 : Nat := 2 ^ 64

/-- Function `genVersionHeight`: `level<<(32+16) | index<<32` on `uint64`. -/
def genVersionHeight (level index : Nat) : Nat :=
  ((level <<< (32 + 16)) % word64) ||| ((index <<< 32) % word64)

/-- Function `newTimeHead`: a zero `Time` whose version is
`genVersionHeight level index` and whose list is initialised.  `addr` is the
address at which the new `Time` is allocated. -/
def newTimeHead (addr level index : Nat) : Time :=
  { locked := false, version := genVersionHeight level index,
    Head := list.Head.Init (.time addr) }

/-- Method `Lock` of the `sync.Mutex` embedded in `Time`: a nil receiver panics,
and a mutex that is already held never becomes free for the caller. -/
def Time.Lock (s : State) (b : Nat) : Except Fault State :=
  match s.heads[b]? with
  | none => .error .nilDeref
  | some B =>
    if B.locked then .error .deadlock
    else .ok (s.modifyTime b (fun T => { T with locked := true }))

/-- Method `Unlock` of the `sync.Mutex` embedded in `Time`; unlocking a mutex
that is not held is a fatal error. -/
def Time.Unlock (s : State) (b : Nat) : Except Fault State :=
  match s.heads[b]? with
  | none => .error .nilDeref
  | some B =>
    if B.locked then .ok (s.modifyTime b (fun T => { T with locked := false }))
    else .error .unlockOfUnlocked

/-- Method `Time.lockPushBack`.  The arguments `level` and `index` are unused by
the body, as in the source. -/
def Time.lockPushBack (s : State) (t node : Nat) (_level _index : Nat) : Except Fault State :=
  match Time.Lock s t with
  | .error e => .error e
  | .ok s1 =>
    match s1.nodes[node]? with
    | none => .error .nilDeref
    | some nd =>
      if nd.stop = haveStop then Time.Unlock s1 t
      else
        match list.Head.AddTail s1 (.time t) (.node node) with
        | .error e => .error e
        | .ok s2 =>
          match s2.heads[t]? with
          | none => .error .nilDeref
          | some T =>
            Time.Unlock
              (s2.modifyNode node (fun x => { x with list := some t, version := T.version })) t

/-- Method `timeNode.Stop`. -/
def timeNode.Stop (s : State) (t : Nat) : Except Fault (Bool × State) :=
  match s.nodes[t]? with
  | none => .error .nilDeref
  | some nd =>
    let s1 := s.modifyNode t (fun x => { x with stop := haveStop })
    match nd.list with
    | none => .error .nilDeref
    | some cpyList =>
      match Time.Lock s1 cpyList with
      | .error e => .error e
      | .ok s2 =>
        match s2.heads[cpyList]? with
        | none => .error .nilDeref
        | some C =>
          if nd.version ≠ C.version then
            (Time.Unlock s2 cpyList).map (fun s3 => (false, s3))
          else
            match list.Head.Del s2 (.time cpyList) (.node t) with
            | .error e => .error e
            | .ok s3 => (Time.Unlock s3 cpyList).map (fun s4 => (true, s4))

/-- Conversion `uint64 -> int64` (as in `time.Duration(jiffies)`). -/
def toInt64 (x : Nat) : Int :=
  if x % word64 < 2 ^ 63 then (x % word64 : Nat) else ((x % word64 : Nat) : Int) - (2 : Int) ^ 64

/-- Wrap-around of an `int64` result. -/
def wrapInt64 (x : Int) : Int :=
  toInt64 (x % (2 : Int) ^ 64).toNat

/-- Conversion `int64 -> uint64`. -/
def toUint64 (x : Int) : Nat :=
  (x % (2 : Int) ^ 64).toNat

/-- Constant `time.Millisecond*10` in nanoseconds. -/
def tenMilliseconds : Int := 10 * 1000000

/-- The tick computed by `Reset`: `expire/(time.Millisecond*10) + time.Duration(jiffies)`
in `int64`, then `uint64(expire)`. -/
def resetExpire (expire : Int) (jiffies : Nat) : Nat :=
  toUint64 (wrapInt64 (Int.tdiv expire tenMilliseconds + toInt64 jiffies))

/-- Modelled from the spec: `timeWheel.add` is not part of the sources.  It picks
the destination bucket from the node's expire tick and the current tick (the
layout of the wheel is the parameter `slot`, giving bucket, level and index)
and inserts the node through that bucket's `lockPushBack`. -/
def timeWheel.add (slot : Nat → Nat → Nat × Nat × Nat) (s : State) (node : Nat)
    (jiffies : Nat) : Except Fault State :=
  match s.nodes[node]? with
  | none => .error .nilDeref
  | some nd =>
    Time.lockPushBack s (slot nd.expire jiffies).1 node (slot nd.expire jiffies).2.1
      (slot nd.expire jiffies).2.2

/-- Method `timeNode.Reset`.  The owner bucket stays locked (the unlock is
deferred) while `t.root.add` runs. -/
def timeNode.Reset (slot : Nat → Nat → Nat × Nat × Nat) (s : State) (t : Nat) (expire : Int) :
    Except Fault (Bool × State) :=
  match s.nodes[t]? with
  | none => .error .nilDeref
  | some nd =>
    match nd.list with
    | none => .error .nilDeref
    | some cpyList =>
      match Time.Lock s cpyList with
      | .error e => .error e
      | .ok s1 =>
        match list.Head.Del s1 (.time cpyList) (.node t) with
        | .error e => .error e
        | .ok s2 =>
          match nd.root with
          | none => .error .nilDeref
          | some root =>
            match s2.wheels[root]? with
            | none => .error .nilDeref
            | some W =>
              let jiffies := W.jiffies
              let s3 := s2.modifyNode t (fun x => { x with expire := resetExpire expire jiffies })
              match timeWheel.add slot s3 t jiffies with
              | .error e => .error e
              | .ok s4 => (Time.Unlock s4 cpyList).map (fun s5 => (true, s5))

/-- An operation of the bucket / node layer. -/
inductive Op where
  | push (t node level index : Nat)
  | stop (node : Nat)
deriving DecidableEq, Repr

/-- Run one operation; the boolean result of `Stop` is dropped. -/
def step (s : State) : Op → Except Fault State
  | .push t node level index => Time.lockPushBack s t node level index
  | .stop node => (timeNode.Stop s node).map Prod.snd

/-- Run a sequence of operations, stopping at the first fault. -/
def run (s : State) : List Op → Except Fault State
  | [] => .ok s
  | op :: ops =>
    match step s op with
    | .error e => .error e
    | .ok s1 => run s1 ops

/-- The initial heap: one bucket `newTimeHead level index` per entry of `hs`
(allocated at consecutive addresses), `k` fresh (zero-valued) nodes and no
wheel. -/
def initState (hs : List (Nat × Nat)) (k : Nat) : State :=
  { heads := hs.enum.map (fun p => newTimeHead p.1 p.2.1 p.2.2),
    nodes := List.replicate k {},
    wheels := [] }

/-- The links `nx` / `pv` form a chain from `p` through the nodes of `l` to `q`:
every `Next` leads to the following element and every `Prev` back. -/
def IsChain (nx pv : Ptr → Option Ptr) : Ptr → List Nat → Ptr → Prop
  | p, [], q => nx p = some q ∧ pv q = some p
  | p, n :: l, q => nx p = some (.node n) ∧ pv (.node n) = some p ∧ IsChain nx pv (.node n) l q

/-- The last element of the chain that starts at `p` and runs through `l`. -/
def lastPtr (p : Ptr) : List Nat → Ptr
  | [] => p
  | n :: l => lastPtr (.node n) l

/-- The first element after the start of a chain through `l` that ends in `q`. -/
def firstPtr (l : List Nat) (q : Ptr) : Ptr :=
  match l with
  | [] => q
  | n :: _ => .node n

/-- Chains are decidable. -/
instance IsChain.instDecidable (nx pv : Ptr → Option Ptr) :
    ∀ (p : Ptr) (l : List Nat) (q : Ptr), Decidable (IsChain nx pv p l q)
  | p, [], q => inferInstanceAs (Decidable (nx p = some q ∧ pv q = some p))
  | p, n :: l, q =>
    have := IsChain.instDecidable nx pv (.node n) l q
    inferInstanceAs (Decidable (nx p = some (.node n) ∧ pv (.node n) = some p ∧
      IsChain nx pv (.node n) l q))

/-- The list anchored at bucket `b` holds exactly the nodes `l`, in this order:
a pass from the head along `Next` meets `l` and comes back to the head, the
`Prev` links mirror it, and no node occurs twice. -/
def IsList (s : State) (b : Nat) (l : List Nat) : Prop :=
  IsChain s.next s.prev (.time b) l (.time b) ∧ l.Nodup

/-- Lists are decidable. -/
instance IsList.instDecidable (s : State) (b : Nat) (l : List Nat) : Decidable (IsList s b l) :=
  inferInstanceAs (Decidable (_ ∧ _))

/-- The link pair of an element that sits between `prv` and `nxt`. -/
def linked (nxt prv : Ptr) : list.Head :=
  { Next := some nxt, Prev := some prv }

/-- A node that is not stopped, was inserted into bucket `owner` when that bucket's
version was `v`, and has the links `h`. -/
def nodeIn (owner v : Nat) (h : list.Head) : timeNode :=
  { list := some owner, version := v, Head := h }

/-- An unlocked bucket of version `v` whose head has the links `h`. -/
def bucketAt (v : Nat) (h : list.Head) : Time :=
  { version := v, Head := h }

/-- Two buckets and three fresh nodes. -/
def demoInit : State := initState [(1, 0), (1, 1)] 3

/-- The heap `demoInit` after node 0 has been pushed into bucket 0. -/
def demoPushed : State :=
  { heads := [{ version := genVersionHeight 1 0, Head := linked (.node 0) (.node 0) },
              newTimeHead 1 1 1],
    nodes := [{ list := some 0, version := genVersionHeight 1 0,
                Head := linked (.time 0) (.time 0) }, {}, {}],
    wheels := [] }

/-- The heap `demoPushed` after Stop on node 0: the bucket is empty again, the node
is flagged, and its owner, version and links are as before. -/
def demoStopped : State :=
  { heads := [newTimeHead 0 1 0, newTimeHead 1 1 1],
    nodes := [{ stop := haveStop, list := some 0, version := genVersionHeight 1 0,
                Head := linked (.time 0) (.time 0) }, {}, {}],
    wheels := [] }

/-- Nodes 0 and 1 linked into bucket 0, in that order. -/
def demoLinked : State :=
  { heads := [{ version := genVersionHeight 1 0, Head := linked (.node 0) (.node 1) },
              newTimeHead 1 1 1],
    nodes := [{ list := some 0, version := genVersionHeight 1 0,
                Head := linked (.node 1) (.time 0) },
              { list := some 0, version := genVersionHeight 1 0,
                Head := linked (.time 0) (.node 0) }, {}],
    wheels := [] }

/-- The heap after pushing nodes 0 and 1 into bucket 0, stopping node 1 and pushing
node 2: the list is 0, 2, and the stopped node 1 still carries the links it had
when it was the tail. -/
def demoRelinked : State :=
  { heads := [{ version := genVersionHeight 1 0, Head := linked (.node 0) (.node 2) },
              newTimeHead 1 1 1],
    nodes := [{ list := some 0, version := genVersionHeight 1 0,
                Head := linked (.node 2) (.time 0) },
              { stop := haveStop, list := some 0, version := genVersionHeight 1 0,
                Head := linked (.time 0) (.node 0) },
              { list := some 0, version := genVersionHeight 1 0,
                Head := linked (.time 0) (.node 0) }],
    wheels := [] }

/-- The heap `demoRelinked` after a second Stop on node 1: the head and node 0 point
at each other, and the live node 2 is no longer reached from the head. -/
def demoDropped : State :=
  { heads := [{ version := genVersionHeight 1 0, Head := linked (.node 0) (.node 0) },
              newTimeHead 1 1 1],
    nodes := [{ list := some 0, version := genVersionHeight 1 0,
                Head := linked (.time 0) (.time 0) },
              { stop := haveStop, list := some 0, version := genVersionHeight 1 0,
                Head := linked (.time 0) (.node 0) },
              { list := some 0, version := genVersionHeight 1 0,
                Head := linked (.time 0) (.node 0) }],
    wheels := [] }

/-- Node 0 records bucket 0 as owner, but bucket 0 has been drained since
(its sequence number is one higher) and node 1 has been inserted afterwards. -/
def demoDrained : State :=
  { heads := [{ version := genVersionHeight 1 0 + 1, Head := linked (.node 1) (.node 1) },
              newTimeHead 1 1 1],
    nodes := [{ list := some 0, version := genVersionHeight 1 0,
                Head := linked (.time 0) (.time 0) },
              { list := some 0, version := genVersionHeight 1 0 + 1,
                Head := linked (.time 0) (.time 0) }],
    wheels := [] }

/-- The heap `demoDrained` after Stop on node 0: versions differ, so only the
stop flag is written. -/
def demoDrainedLazy : State :=
  { heads := [{ version := genVersionHeight 1 0 + 1, Head := linked (.node 1) (.node 1) },
              newTimeHead 1 1 1],
    nodes := [{ stop := haveStop, list := some 0, version := genVersionHeight 1 0,
                Head := linked (.time 0) (.time 0) },
              { list := some 0, version := genVersionHeight 1 0 + 1,
                Head := linked (.time 0) (.time 0) }],
    wheels := [] }

/-- The heap `demoDrainedLazy` after Stop on node 1, which unlinks it. -/
def demoDrainedStopped : State :=
  { heads := [{ version := genVersionHeight 1 0 + 1, Head := linked (.time 0) (.time 0) },
              newTimeHead 1 1 1],
    nodes := [{ stop := haveStop, list := some 0, version := genVersionHeight 1 0,
                Head := linked (.time 0) (.time 0) },
              { stop := haveStop, list := some 0, version := genVersionHeight 1 0 + 1,
                Head := linked (.time 0) (.time 0) }],
    wheels := [] }

/-- A one-level wheel of four buckets: the destination of a node is the bucket
numbered by its expire tick modulo four. -/
def demoSlot (expire _jiffies : Nat) : Nat × Nat × Nat :=
  (expire % 4, 1, expire % 4)

/-- A wheel at tick 0 with four empty buckets and a new timer of 25ms (expire tick 2)
that has not been inserted yet. -/
def demoWheelNew : State :=
  { heads := [newTimeHead 0 1 0, newTimeHead 1 1 1, newTimeHead 2 1 2, newTimeHead 3 1 3],
    nodes := [{ expire := 2, userExpire := 25000000, root := some 0 }],
    wheels := [{ jiffies := 0 }] }

/-- The heap `demoWheelNew` after the wheel has inserted the timer: it sits in bucket 2. -/
def demoWheelScheduled : State :=
  { heads := [newTimeHead 0 1 0, newTimeHead 1 1 1,
              { version := genVersionHeight 1 2, Head := linked (.node 0) (.node 0) },
              newTimeHead 3 1 3],
    nodes := [{ expire := 2, userExpire := 25000000, root := some 0, list := some 2,
                version := genVersionHeight 1 2, Head := linked (.time 2) (.time 2) }],
    wheels := [{ jiffies := 0 }] }

/-! ## Reading the heap after a write -/

theorem modify_eq_self {α : Type} (l : List α) (i : Nat) (f : α → α)
    (h : ∀ a, l[i]? = some a → f a = a) : l.modify f i = l := by
  induction l generalizing i with
  | nil => simp
  | cons x xs ih =>
    cases i with
    | zero => simp [h x (by simp)]
    | succ j =>
      simp only [List.modify_succ_cons, List.cons.injEq, true_and]
      exact ih j (fun a ha => h a (by simpa using ha))

theorem modify_modify {α : Type} (l : List α) (i : Nat) (f g : α → α) :
    (l.modify f i).modify g i = l.modify (fun a => g (f a)) i := by
  induction l generalizing i with
  | nil => simp
  | cons x xs ih =>
    cases i with
    | zero => simp
    | succ j => simp [ih j]

theorem modify_eq_set {α : Type} (l : List α) (i : Nat) (f : α → α) (a : α)
    (h : l[i]? = some a) : l.modify f i = l.set i (f a) := by
  induction l generalizing i with
  | nil => simp at h
  | cons x xs ih =>
    cases i with
    | zero => simp at h; simp [h]
    | succ j => simp at h; simp [ih j h]

theorem valid_of_next (s : State) (p q : Ptr) (h : s.next p = some q) : s.valid p = true := by
  cases p with
  | time b =>
    simp only [State.next] at h
    cases hb : s.heads[b]? with
    | none => simp [hb] at h
    | some T =>
      have := (List.getElem?_eq_some.mp hb).1
      simp [State.valid, this]
  | node n =>
    simp only [State.next] at h
    cases hb : s.nodes[n]? with
    | none => simp [hb] at h
    | some T =>
      have := (List.getElem?_eq_some.mp hb).1
      simp [State.valid, this]

theorem valid_of_prev (s : State) (p q : Ptr) (h : s.prev p = some q) : s.valid p = true := by
  cases p with
  | time b =>
    simp only [State.prev] at h
    cases hb : s.heads[b]? with
    | none => simp [hb] at h
    | some T =>
      have := (List.getElem?_eq_some.mp hb).1
      simp [State.valid, this]
  | node n =>
    simp only [State.prev] at h
    cases hb : s.nodes[n]? with
    | none => simp [hb] at h
    | some T =>
      have := (List.getElem?_eq_some.mp hb).1
      simp [State.valid, this]

theorem valid_modifyTime (s : State) (b : Nat) (f : Time → Time) (x : Ptr) :
    (s.modifyTime b f).valid x = s.valid x := by
  cases x <;> simp [State.valid, State.modifyTime]

theorem valid_modifyNode (s : State) (n : Nat) (f : timeNode → timeNode) (x : Ptr) :
    (s.modifyNode n f).valid x = s.valid x := by
  cases x <;> simp [State.valid, State.modifyNode]

theorem valid_writeNext (s : State) (p : Ptr) (q : Option Ptr) (x : Ptr) :
    (s.writeNext p q).valid x = s.valid x := by
  cases p <;> simp [State.writeNext, valid_modifyTime, valid_modifyNode]

theorem valid_writePrev (s : State) (p : Ptr) (q : Option Ptr) (x : Ptr) :
    (s.writePrev p q).valid x = s.valid x := by
  cases p <;> simp [State.writePrev, valid_modifyTime, valid_modifyNode]

theorem next_modifyTime (s : State) (b : Nat) (f : Time → Time)
    (hf : ∀ T, (f T).Head = T.Head) : (s.modifyTime b f).next = s.next := by
  funext x
  cases x with
  | time c =>
    simp only [State.next, State.modifyTime, List.getElem?_modify]
    cases s.heads[c]? with
    | none => rfl
    | some T => by_cases h : b = c <;> simp [h, hf]
  | node n => rfl

theorem prev_modifyTime (s : State) (b : Nat) (f : Time → Time)
    (hf : ∀ T, (f T).Head = T.Head) : (s.modifyTime b f).prev = s.prev := by
  funext x
  cases x with
  | time c =>
    simp only [State.prev, State.modifyTime, List.getElem?_modify]
    cases s.heads[c]? with
    | none => rfl
    | some T => by_cases h : b = c <;> simp [h, hf]
  | node n => rfl

theorem next_modifyNode (s : State) (n : Nat) (f : timeNode → timeNode)
    (hf : ∀ x, (f x).Head = x.Head) : (s.modifyNode n f).next = s.next := by
  funext x
  cases x with
  | time c => rfl
  | node m =>
    simp only [State.next, State.modifyNode, List.getElem?_modify]
    cases s.nodes[m]? with
    | none => rfl
    | some T => by_cases h : n = m <;> simp [h, hf]

theorem prev_modifyNode (s : State) (n : Nat) (f : timeNode → timeNode)
    (hf : ∀ x, (f x).Head = x.Head) : (s.modifyNode n f).prev = s.prev := by
  funext x
  cases x with
  | time c => rfl
  | node m =>
    simp only [State.prev, State.modifyNode, List.getElem?_modify]
    cases s.nodes[m]? with
    | none => rfl
    | some T => by_cases h : n = m <;> simp [h, hf]

theorem next_writeNext (s : State) (p : Ptr) (q : Option Ptr) (hv : s.valid p = true) :
    (s.writeNext p q).next = Function.update s.next p q := by
  funext x
  cases p with
  | time b =>
    have hb : b < s.heads.length := by simpa [State.valid] using hv
    cases x with
    | time c =>
      by_cases h : c = b
      · subst h
        simp [State.writeNext, State.next, State.modifyTime, List.getElem?_modify, hb]
      · have h' : b ≠ c := fun e => h e.symm
        simp [State.writeNext, State.next, State.modifyTime, List.getElem?_modify, h, h']
    | node m => simp [State.writeNext, State.next, State.modifyTime]
  | node n =>
    have hb : n < s.nodes.length := by simpa [State.valid] using hv
    cases x with
    | time c => simp [State.writeNext, State.next, State.modifyNode]
    | node m =>
      by_cases h : m = n
      · subst h
        simp [State.writeNext, State.next, State.modifyNode, List.getElem?_modify, hb]
      · have h' : n ≠ m := fun e => h e.symm
        simp [State.writeNext, State.next, State.modifyNode, List.getElem?_modify, h, h']

theorem prev_writePrev (s : State) (p : Ptr) (q : Option Ptr) (hv : s.valid p = true) :
    (s.writePrev p q).prev = Function.update s.prev p q := by
  funext x
  cases p with
  | time b =>
    have hb : b < s.heads.length := by simpa [State.valid] using hv
    cases x with
    | time c =>
      by_cases h : c = b
      · subst h
        simp [State.writePrev, State.prev, State.modifyTime, List.getElem?_modify, hb]
      · have h' : b ≠ c := fun e => h e.symm
        simp [State.writePrev, State.prev, State.modifyTime, List.getElem?_modify, h, h']
    | node m => simp [State.writePrev, State.prev, State.modifyTime]
  | node n =>
    have hb : n < s.nodes.length := by simpa [State.valid] using hv
    cases x with
    | time c => simp [State.writePrev, State.prev, State.modifyNode]
    | node m =>
      by_cases h : m = n
      · subst h
        simp [State.writePrev, State.prev, State.modifyNode, List.getElem?_modify, hb]
      · have h' : n ≠ m := fun e => h e.symm
        simp [State.writePrev, State.prev, State.modifyNode, List.getElem?_modify, h, h']

theorem prev_writeNext (s : State) (p : Ptr) (q : Option Ptr) :
    (s.writeNext p q).prev = s.prev := by
  funext x
  cases p with
  | time b =>
    cases x with
    | time c =>
      simp only [State.writeNext, State.prev, State.modifyTime, List.getElem?_modify]
      cases s.heads[c]? with
      | none => rfl
      | some T => by_cases h : b = c <;> simp [h]
    | node m => rfl
  | node n =>
    cases x with
    | time c => rfl
    | node m =>
      simp only [State.writeNext, State.prev, State.modifyNode, List.getElem?_modify]
      cases s.nodes[m]? with
      | none => rfl
      | some T => by_cases h : n = m <;> simp [h]

theorem next_writePrev (s : State) (p : Ptr) (q : Option Ptr) :
    (s.writePrev p q).next = s.next := by
  funext x
  cases p with
  | time b =>
    cases x with
    | time c =>
      simp only [State.writePrev, State.next, State.modifyTime, List.getElem?_modify]
      cases s.heads[c]? with
      | none => rfl
      | some T => by_cases h : b = c <;> simp [h]
    | node m => rfl
  | node n =>
    cases x with
    | time c => rfl
    | node m =>
      simp only [State.writePrev, State.next, State.modifyNode, List.getElem?_modify]
      cases s.nodes[m]? with
      | none => rfl
      | some T => by_cases h : n = m <;> simp [h]

/-! ## The list operations leave everything but the links alone -/

theorem map_modify_eq {α β : Type} (l : List α) (i : Nat) (f : α → α) (g : α → β)
    (h : ∀ a, g (f a) = g a) : (l.modify f i).map g = l.map g := by
  induction l generalizing i with
  | nil => simp
  | cons x xs ih =>
    cases i with
    | zero => simp [h]
    | succ j => simp [ih j]

theorem data_writeNext (s : State) (p : Ptr) (q : Option Ptr) :
    (s.writeNext p q).data = s.data := by
  cases p with
  | time b =>
    simp only [State.writeNext, State.data, State.modifyTime]
    congr 1
    apply map_modify_eq
    intro a
    rfl
  | node n =>
    simp only [State.writeNext, State.data, State.modifyNode]
    congr 1
    apply map_modify_eq
    intro a
    rfl

theorem data_writePrev (s : State) (p : Ptr) (q : Option Ptr) :
    (s.writePrev p q).data = s.data := by
  cases p with
  | time b =>
    simp only [State.writePrev, State.data, State.modifyTime]
    congr 1
    apply map_modify_eq
    intro a
    rfl
  | node n =>
    simp only [State.writePrev, State.data, State.modifyNode]
    congr 1
    apply map_modify_eq
    intro a
    rfl

theorem nodes_of_data (s s' : State) (h : s'.data = s.data) (n : Nat) (nd : timeNode)
    (hn : s.nodes[n]? = some nd) :
    ∃ nd', s'.nodes[n]? = some nd' ∧ nd'.data = nd.data := by
  have h1 : (s'.nodes.map timeNode.data)[n]? = (s.nodes.map timeNode.data)[n]? := by
    have := congrArg State.nodes h
    simp only [State.data] at this
    rw [this]
  simp only [List.getElem?_map, hn, Option.map_some'] at h1
  cases h2 : s'.nodes[n]? with
  | none => simp [h2] at h1
  | some nd' =>
    simp only [h2, Option.map_some', Option.some.injEq] at h1
    exact ⟨nd', rfl, h1⟩

theorem heads_of_data (s s' : State) (h : s'.data = s.data) (b : Nat) (B : Time)
    (hB : s.heads[b]? = some B) :
    ∃ B', s'.heads[b]? = some B' ∧ B'.data = B.data := by
  have h1 : (s'.heads.map Time.data)[b]? = (s.heads.map Time.data)[b]? := by
    have := congrArg State.heads h
    simp only [State.data] at this
    rw [this]
  simp only [List.getElem?_map, hB, Option.map_some'] at h1
  cases h2 : s'.heads[b]? with
  | none => simp [h2] at h1
  | some B' =>
    simp only [h2, Option.map_some', Option.some.injEq] at h1
    exact ⟨B', rfl, h1⟩

theorem wheels_of_data (s s' : State) (h : s'.data = s.data) : s'.wheels = s.wheels := by
  have := congrArg State.wheels h
  simpa [State.data] using this

theorem setNext_ok_iff (s s' : State) (p q : Option Ptr) :
    s.setNext p q = .ok s' ↔ ∃ p0, p = some p0 ∧ s.valid p0 = true ∧ s' = s.writeNext p0 q := by
  cases p with
  | none => simp [State.setNext]
  | some p0 =>
    by_cases hv : s.valid p0 = true
    · simp only [State.setNext, hv, if_true, Except.ok.injEq, Option.some.injEq,
        exists_eq_left', true_and]
      exact eq_comm
    · simp [State.setNext, hv]

theorem setPrev_ok_iff (s s' : State) (p q : Option Ptr) :
    s.setPrev p q = .ok s' ↔ ∃ p0, p = some p0 ∧ s.valid p0 = true ∧ s' = s.writePrev p0 q := by
  cases p with
  | none => simp [State.setPrev]
  | some p0 =>
    by_cases hv : s.valid p0 = true
    · simp only [State.setPrev, hv, if_true, Except.ok.injEq, Option.some.injEq,
        exists_eq_left', true_and]
      exact eq_comm
    · simp [State.setPrev, hv]

/-- What a successful `AddTail` is: four link writes. -/
theorem AddTail_ok_iff (s s' : State) (head new : Ptr) :
    list.Head.AddTail s head new = .ok s' ↔
      s.valid head = true ∧ s.valid new = true ∧ ∃ a, s.prev head = some a ∧ s.valid a = true ∧
        s' = (((s.writePrev head (some new)).writeNext new (some head)).writePrev new
          (some a)).writeNext a (some new) := by
  unfold list.Head.AddTail list.Head.add
  by_cases hh : s.valid head = true
  · by_cases hn : s.valid new = true
    · cases ha : s.prev head with
      | none =>
        simp [hh, hn, State.setPrev, State.setNext, valid_writePrev, valid_writeNext]
      | some a =>
        by_cases hva : s.valid a = true
        · simp only [hh, hn, hva, State.setPrev, State.setNext, valid_writePrev, valid_writeNext,
            if_true, Except.ok.injEq, Option.some.injEq, exists_eq_left', true_and]
          exact eq_comm
        · simp [hh, hn, hva, State.setPrev, State.setNext, valid_writePrev, valid_writeNext]
    · simp [hh, hn, State.setPrev, State.setNext, valid_writePrev, valid_writeNext]
  · simp [hh]

/-- What a successful `Del` is: two link writes through the entry's own links. -/
theorem Del_ok_iff (s s' : State) (head entry : Ptr) :
    list.Head.Del s head entry = .ok s' ↔
      ∃ a c, s.prev entry = some a ∧ s.next entry = some c ∧ s.valid a = true ∧
        s.valid c = true ∧ s' = (s.writePrev c (some a)).writeNext a (some c) := by
  unfold list.Head.Del
  by_cases he : s.valid entry = true
  · cases hc : s.next entry with
    | none => simp [he, State.setPrev]
    | some c =>
      cases ha : s.prev entry with
      | none =>
        by_cases hvc : s.valid c = true
        · simp [he, hvc, State.setPrev, State.setNext]
        · simp [he, hvc, State.setPrev, State.setNext]
      | some a =>
        by_cases hvc : s.valid c = true
        · by_cases hva : s.valid a = true
          · simp only [he, hvc, hva, State.setPrev, State.setNext, valid_writePrev, if_true,
              Except.ok.injEq, Option.some.injEq]
            constructor
            · intro h
              exact ⟨a, c, rfl, rfl, hva, hvc, h.symm⟩
            · rintro ⟨a1, c1, rfl, rfl, _, _, h⟩
              exact h.symm
          · simp [he, hvc, hva, State.setPrev, State.setNext, valid_writePrev]
        · simp [he, hvc, State.setPrev, State.setNext]
  · have hc : s.next entry = none := by
      cases h : s.next entry with
      | none => rfl
      | some c => exact absurd (valid_of_next s entry c h) he
    simp [he, hc]

theorem AddTail_next (s s' : State) (head new : Ptr) (h : list.Head.AddTail s head new = .ok s') :
    ∃ a, s.prev head = some a ∧
      s'.next = Function.update (Function.update s.next new (some head)) a (some new) ∧
      s'.prev = Function.update (Function.update s.prev head (some new)) new (some a) ∧
      s'.data = s.data ∧ (∀ x, s'.valid x = s.valid x) := by
  obtain ⟨hh, hn, a, ha, hva, rfl⟩ := (AddTail_ok_iff s s' head new).mp h
  refine ⟨a, ha, ?_, ?_, ?_, ?_⟩
  · rw [next_writeNext _ _ _ (by simpa [valid_writePrev, valid_writeNext] using hva),
      next_writePrev, next_writeNext _ _ _ (by simpa [valid_writePrev] using hn), next_writePrev]
  · rw [prev_writeNext, prev_writePrev _ _ _ (by simpa [valid_writePrev, valid_writeNext] using hn),
      prev_writeNext, prev_writePrev _ _ _ hh]
  · rw [data_writeNext, data_writePrev, data_writeNext, data_writePrev]
  · intro x
    simp [valid_writePrev, valid_writeNext]

theorem Del_next (s s' : State) (head entry : Ptr) (h : list.Head.Del s head entry = .ok s') :
    ∃ a c, s.prev entry = some a ∧ s.next entry = some c ∧
      s'.next = Function.update s.next a (some c) ∧
      s'.prev = Function.update s.prev c (some a) ∧
      s'.data = s.data ∧ (∀ x, s'.valid x = s.valid x) := by
  obtain ⟨a, c, ha, hc, hva, hvc, rfl⟩ := (Del_ok_iff s s' head entry).mp h
  refine ⟨a, c, ha, hc, ?_, ?_, ?_, ?_⟩
  · rw [next_writeNext _ _ _ (by simpa [valid_writePrev] using hva), next_writePrev]
  · rw [prev_writeNext, prev_writePrev _ _ _ hvc]
  · rw [data_writeNext, data_writePrev]
  · intro x
    simp [valid_writePrev, valid_writeNext]

/-! ## Chains of links -/

theorem lastPtr_mem (p : Ptr) (l : List Nat) :
    lastPtr p l = p ∨ ∃ m, m ∈ l ∧ lastPtr p l = .node m := by
  induction l generalizing p with
  | nil => exact Or.inl rfl
  | cons n l ih =>
    rcases ih (.node n) with h | ⟨m, hm, h⟩
    · exact Or.inr ⟨n, by simp, h⟩
    · exact Or.inr ⟨m, by simp [hm], h⟩

theorem lastPtr_append (p : Ptr) (l : List Nat) (n : Nat) : lastPtr p (l ++ [n]) = .node n := by
  induction l generalizing p with
  | nil => rfl
  | cons m l ih => exact ih (.node m)

theorem chain_last (nx pv : Ptr → Option Ptr) (p q : Ptr) (l : List Nat)
    (h : IsChain nx pv p l q) : nx (lastPtr p l) = some q ∧ pv q = some (lastPtr p l) := by
  induction l generalizing p with
  | nil => exact h
  | cons n l ih => exact ih (.node n) h.2.2

theorem chain_first (nx pv : Ptr → Option Ptr) (p q : Ptr) (l : List Nat)
    (h : IsChain nx pv p l q) : nx p = some (firstPtr l q) := by
  cases l with
  | nil => exact h.1
  | cons n l => exact h.1

theorem chain_congr (nx pv nx' pv' : Ptr → Option Ptr) (p q : Ptr) (l : List Nat)
    (h : IsChain nx pv p l q) (hp : nx' p = nx p)
    (hnx : ∀ m, m ∈ l → nx' (.node m) = nx (.node m))
    (hpv : ∀ m, m ∈ l → pv' (.node m) = pv (.node m)) (hq : pv' q = pv q) :
    IsChain nx' pv' p l q := by
  induction l generalizing p with
  | nil => exact ⟨hp ▸ h.1, hq ▸ h.2⟩
  | cons n l ih =>
    refine ⟨hp ▸ h.1, ?_, ?_⟩
    · rw [hpv n (by simp)]
      exact h.2.1
    · exact ih (.node n) h.2.2 (hnx n (by simp)) (fun m hm => hnx m (by simp [hm]))
        (fun m hm => hpv m (by simp [hm]))

theorem chain_append (nx pv : Ptr → Option Ptr) (p q : Ptr) (l1 l2 : List Nat) (n : Nat) :
    IsChain nx pv p (l1 ++ n :: l2) q ↔
      IsChain nx pv p l1 (.node n) ∧ IsChain nx pv (.node n) l2 q := by
  induction l1 generalizing p with
  | nil => simp [IsChain, and_assoc]
  | cons m l1 ih => simp [IsChain, ih, and_assoc]

/-- Linking a new node behind the last element of a chain extends the chain. -/
theorem chain_snoc (nx pv : Ptr → Option Ptr) (p q : Ptr) (l : List Nat) (n : Nat)
    (h : IsChain nx pv p l q) (hnd : l.Nodup) (hn : n ∉ l)
    (hp : p ≠ .node n) (hpl : ∀ m, m ∈ l → p ≠ .node m)
    (hq : q ≠ .node n) (hql : ∀ m, m ∈ l → q ≠ .node m) :
    IsChain (Function.update (Function.update nx (.node n) (some q)) (lastPtr p l) (some (.node n)))
      (Function.update (Function.update pv q (some (.node n))) (.node n) (some (lastPtr p l)))
      p (l ++ [n]) q := by
  induction l generalizing p with
  | nil =>
    simp only [lastPtr, List.nil_append, IsChain]
    refine ⟨by simp, by simp, ?_, ?_⟩
    · rw [Function.update_noteq (Ne.symm hp), Function.update_same]
    · rw [Function.update_noteq hq, Function.update_same]
  | cons m l ih =>
    have hmn : m ≠ n := fun e => hn (by simp [e])
    have hlast : p ≠ lastPtr (.node m) l := by
      rcases lastPtr_mem (.node m) l with e | ⟨k, hk, e⟩
      · rw [e]; exact hpl m (by simp)
      · rw [e]; exact hpl k (by simp [hk])
    simp only [lastPtr, List.cons_append, IsChain]
    refine ⟨?_, ?_, ?_⟩
    · rw [Function.update_noteq hlast, Function.update_noteq hp]
      exact h.1
    · rw [Function.update_noteq (by simpa using hmn),
        Function.update_noteq (Ne.symm (hql m (by simp)))]
      exact h.2.1
    · exact ih (.node m) h.2.2 (List.nodup_cons.mp hnd).2 (fun hm => hn (by simp [hm]))
        (by simpa using hmn)
        (fun k hk e => by
          have : m = k := by simpa using e
          exact (List.nodup_cons.mp hnd).1 (this ▸ hk))
        (fun k hk => hql k (by simp [hk]))

/-- Joining the two neighbours of a node of a chain takes the node out of it. -/
theorem chain_del (nx pv : Ptr → Option Ptr) (p q a c : Ptr) (l1 l2 : List Nat) (n : Nat)
    (h : IsChain nx pv p (l1 ++ n :: l2) q) (hnd : (l1 ++ n :: l2).Nodup)
    (hpl : ∀ m, m ∈ l1 ++ n :: l2 → p ≠ .node m)
    (hql : ∀ m, m ∈ l1 ++ n :: l2 → q ≠ .node m)
    (ha : pv (.node n) = some a) (hc : nx (.node n) = some c) :
    IsChain (Function.update nx a (some c)) (Function.update pv c (some a)) p (l1 ++ l2) q := by
  induction l1 generalizing p with
  | nil =>
    simp only [List.nil_append] at h hnd hpl hql ⊢
    have hap : a = p := by
      have := h.2.1
      rw [ha] at this
      exact Option.some.inj this
    subst hap
    have hcf : c = firstPtr l2 q := by
      have := chain_first nx pv (.node n) q l2 h.2.2
      rw [hc] at this
      exact Option.some.inj this
    cases l2 with
    | nil =>
      simp only [firstPtr] at hcf
      subst hcf
      exact ⟨by simp, by simp⟩
    | cons m l2 =>
      simp only [firstPtr] at hcf
      subst hcf
      have hnd2 := (List.nodup_cons.mp (List.nodup_cons.mp hnd).2)
      refine ⟨by simp, by simp, ?_⟩
      refine chain_congr nx pv _ _ (.node m) q l2 h.2.2.2.2 ?_ ?_ ?_ ?_
      · rw [Function.update_noteq (Ne.symm (hpl m (by simp)))]
      · intro k hk
        rw [Function.update_noteq (Ne.symm (hpl k (by simp [hk])))]
      · intro k hk
        rw [Function.update_noteq]
        intro e
        have : k = m := by simpa using e
        exact hnd2.1 (this ▸ hk)
      · rw [Function.update_noteq (hql m (by simp))]
  | cons k l1 ih =>
    simp only [List.cons_append] at h hnd hpl hql ⊢
    have hnd1 := List.nodup_cons.mp hnd
    have hsplit := (chain_append nx pv (.node k) q l1 l2 n).mp h.2.2
    have hal : a = lastPtr (.node k) l1 := by
      have := (chain_last nx pv (.node k) (.node n) l1 hsplit.1).2
      rw [ha] at this
      exact Option.some.inj this
    have hcf : c = firstPtr l2 q := by
      have := chain_first nx pv (.node n) q l2 hsplit.2
      rw [hc] at this
      exact Option.some.inj this
    have hpa : p ≠ a := by
      rw [hal]
      rcases lastPtr_mem (.node k) l1 with e | ⟨j, hj, e⟩
      · rw [e]; exact hpl k (by simp)
      · rw [e]; exact hpl j (by simp [hj])
    have hkc : Ptr.node k ≠ c := by
      rw [hcf]
      cases l2 with
      | nil => exact Ne.symm (hql k (by simp))
      | cons j l2 =>
        simp only [firstPtr, ne_eq, Ptr.node.injEq]
        intro e
        exact hnd1.1 (by simp [e])
    refine ⟨?_, ?_, ?_⟩
    · rw [Function.update_noteq hpa]
      exact h.1
    · rw [Function.update_noteq hkc]
      exact h.2.1
    · refine ih (.node k) h.2.2 hnd1.2 ?_ (fun m hm => hql m (by simp [hm]))
      intro m hm e
      have : k = m := by simpa using e
      exact hnd1.1 (this ▸ hm)

/-! ## What each call computes -/

theorem Lock_ok (s : State) (b : Nat) (B : Time) (hB : s.heads[b]? = some B)
    (hfree : B.locked = false) :
    Time.Lock s b = .ok (s.modifyTime b (fun T => { T with locked := true })) := by
  simp [Time.Lock, hB, hfree]

theorem Unlock_ok (s : State) (b : Nat) (B : Time) (hB : s.heads[b]? = some B)
    (hheld : B.locked = true) :
    Time.Unlock s b = .ok (s.modifyTime b (fun T => { T with locked := false })) := by
  simp [Time.Unlock, hB, hheld]

theorem next_lock (s : State) (b : Nat) (v : Bool) :
    (s.modifyTime b (fun T => { T with locked := v })).next = s.next :=
  next_modifyTime s b _ (fun _ => rfl)

theorem prev_lock (s : State) (b : Nat) (v : Bool) :
    (s.modifyTime b (fun T => { T with locked := v })).prev = s.prev :=
  prev_modifyTime s b _ (fun _ => rfl)

theorem next_setOwner (s : State) (n b v : Nat) :
    (s.modifyNode n (fun x => { x with list := some b, version := v })).next = s.next :=
  next_modifyNode s n _ (fun _ => rfl)

theorem prev_setOwner (s : State) (n b v : Nat) :
    (s.modifyNode n (fun x => { x with list := some b, version := v })).prev = s.prev :=
  prev_modifyNode s n _ (fun _ => rfl)

theorem next_setStop (s : State) (n : Nat) :
    (s.modifyNode n (fun x => { x with stop := haveStop })).next = s.next :=
  next_modifyNode s n _ (fun _ => rfl)

theorem prev_setStop (s : State) (n : Nat) :
    (s.modifyNode n (fun x => { x with stop := haveStop })).prev = s.prev :=
  prev_modifyNode s n _ (fun _ => rfl)

theorem next_setExpire (s : State) (n e : Nat) :
    (s.modifyNode n (fun x => { x with expire := e })).next = s.next :=
  next_modifyNode s n _ (fun _ => rfl)

theorem prev_setExpire (s : State) (n e : Nat) :
    (s.modifyNode n (fun x => { x with expire := e })).prev = s.prev :=
  prev_modifyNode s n _ (fun _ => rfl)

theorem heads_modifyTime_same (s : State) (b : Nat) (f : Time → Time) (B : Time)
    (hB : s.heads[b]? = some B) : (s.modifyTime b f).heads[b]? = some (f B) := by
  simp [State.modifyTime, hB]

theorem nodes_modifyNode_same (s : State) (n : Nat) (f : timeNode → timeNode) (nd : timeNode)
    (hn : s.nodes[n]? = some nd) : (s.modifyNode n f).nodes[n]? = some (f nd) := by
  simp [State.modifyNode, hn]

theorem heads_same_data (s s' : State) (h : s'.data = s.data) (b : Nat) (B : Time)
    (hB : s.heads[b]? = some B) :
    ∃ B', s'.heads[b]? = some B' ∧ B'.locked = B.locked ∧ B'.version = B.version := by
  obtain ⟨B', hB', hd⟩ := heads_of_data s s' h b B hB
  have h1 : B'.data.locked = B.data.locked := by rw [hd]
  have h2 : B'.data.version = B.data.version := by rw [hd]
  exact ⟨B', hB', h1, h2⟩

theorem nodes_same_data (s s' : State) (h : s'.data = s.data) (n : Nat) (nd : timeNode)
    (hn : s.nodes[n]? = some nd) :
    ∃ nd', s'.nodes[n]? = some nd' ∧ nd'.stop = nd.stop ∧ nd'.list = nd.list ∧
      nd'.version = nd.version ∧ nd'.root = nd.root ∧ nd'.expire = nd.expire := by
  obtain ⟨nd', hn', hd⟩ := nodes_of_data s s' h n nd hn
  have h1 : nd'.data.stop = nd.data.stop := by rw [hd]
  have h2 : nd'.data.list = nd.data.list := by rw [hd]
  have h3 : nd'.data.version = nd.data.version := by rw [hd]
  have h4 : nd'.data.root = nd.data.root := by rw [hd]
  have h5 : nd'.data.expire = nd.data.expire := by rw [hd]
  exact ⟨nd', hn', h1, h2, h3, h4, h5⟩

/-- A stopped node is left alone. -/
theorem lockPushBack_stopped (s : State) (b n level index : Nat) (nd : timeNode) (B : Time)
    (hn : s.nodes[n]? = some nd) (hB : s.heads[b]? = some B) (hfree : B.locked = false)
    (hstop : nd.stop = haveStop) :
    Time.lockPushBack s b n level index = .ok s := by
  unfold Time.lockPushBack
  rw [Lock_ok s b B hB hfree]
  have h1 : (s.modifyTime b (fun T => { T with locked := true })).nodes[n]? = some nd := hn
  simp only [h1, hstop, if_true]
  rw [Unlock_ok _ b _ (heads_modifyTime_same s b _ B hB) rfl]
  simp only [State.modifyTime, modify_modify]
  rw [modify_eq_self]
  intro a ha
  rw [hB] at ha
  cases ha
  cases B
  simp_all

/-- A live (not stopped) node: the call is the `AddTail` under the lock followed by
the two stores into the node. -/
theorem lockPushBack_live_iff (s s' : State) (b n level index : Nat) (nd : timeNode)
    (B : Time) (hn : s.nodes[n]? = some nd) (hB : s.heads[b]? = some B)
    (hfree : B.locked = false) (hlive : nd.stop ≠ haveStop) :
    Time.lockPushBack s b n level index = .ok s' ↔
      ∃ s2, list.Head.AddTail (s.modifyTime b (fun T => { T with locked := true }))
          (.time b) (.node n) = .ok s2 ∧
        s' = (s2.modifyNode n (fun x => { x with list := some b, version := B.version })).modifyTime
          b (fun T => { T with locked := false }) := by
  unfold Time.lockPushBack
  rw [Lock_ok s b B hB hfree]
  have h1 : (s.modifyTime b (fun T => { T with locked := true })).nodes[n]? = some nd := hn
  simp only [h1, hlive, if_false]
  cases hA : list.Head.AddTail (s.modifyTime b (fun T => { T with locked := true }))
      (.time b) (.node n) with
  | error e => simp
  | ok s2 =>
    obtain ⟨a, _, _, _, hdata, _⟩ := AddTail_next _ _ _ _ hA
    obtain ⟨T, hT, hTl, hTv⟩ := heads_same_data _ s2 hdata b _
      (heads_modifyTime_same s b (fun T => { T with locked := true }) B hB)
    simp only [hT]
    have hT3 : (s2.modifyNode n (fun x => { x with list := some b, version := T.version })).heads[b]?
        = some T := hT
    rw [Unlock_ok _ b T hT3 hTl]
    simp only [Except.ok.injEq, exists_eq_left']
    have hv : T.version = B.version := hTv
    rw [hv]
    exact eq_comm

/-- Versions differ: only the stop flag is written. -/
theorem Stop_mismatch (s : State) (n b : Nat) (nd : timeNode) (B : Time)
    (hn : s.nodes[n]? = some nd) (hown : nd.list = some b)
    (hB : s.heads[b]? = some B) (hfree : B.locked = false)
    (hver : nd.version ≠ B.version) :
    timeNode.Stop s n = .ok (false,
      { heads := s.heads, nodes := s.nodes.set n { nd with stop := haveStop },
        wheels := s.wheels }) := by
  unfold timeNode.Stop
  simp only [hn, hown]
  have hB1 : (s.modifyNode n (fun x => { x with stop := haveStop })).heads[b]? = some B := hB
  rw [Lock_ok _ b B hB1 hfree]
  simp only [heads_modifyTime_same _ b _ B hB1, hver, ne_eq, not_false_eq_true, if_true]
  rw [Unlock_ok _ b _ (heads_modifyTime_same _ b _ B hB1) rfl]
  have hself : s.heads.modify (fun a => { locked := false, version := a.version, Head := a.Head })
      b = s.heads := by
    apply modify_eq_self
    intro a ha
    rw [hB] at ha
    cases ha
    cases B
    simp_all
  simp only [Except.map, State.modifyTime, State.modifyNode, modify_modify]
  rw [hself, modify_eq_set _ _ _ nd hn, hown]

/-- Versions agree: the call is the `Del` of the node's links under the lock. -/
theorem Stop_match_iff (s s' : State) (n b : Nat) (r : Bool) (nd : timeNode) (B : Time)
    (hn : s.nodes[n]? = some nd) (hown : nd.list = some b)
    (hB : s.heads[b]? = some B) (hfree : B.locked = false)
    (hver : nd.version = B.version) :
    timeNode.Stop s n = .ok (r, s') ↔
      r = true ∧ ∃ s3, list.Head.Del
          ((s.modifyNode n (fun x => { x with stop := haveStop })).modifyTime b
            (fun T => { T with locked := true })) (.time b) (.node n) = .ok s3 ∧
        s' = s3.modifyTime b (fun T => { T with locked := false }) := by
  unfold timeNode.Stop
  simp only [hn, hown]
  have hB1 : (s.modifyNode n (fun x => { x with stop := haveStop })).heads[b]? = some B := hB
  rw [Lock_ok _ b B hB1 hfree]
  simp only [heads_modifyTime_same _ b _ B hB1, hver, ne_eq, not_true_eq_false, if_false]
  cases hD : list.Head.Del
      ((s.modifyNode n (fun x => { x with stop := haveStop })).modifyTime b
        (fun T => { T with locked := true })) (.time b) (.node n) with
  | error e => simp
  | ok s3 =>
    obtain ⟨a, c, _, _, _, _, hdata, _⟩ := Del_next _ _ _ _ hD
    obtain ⟨T, hT, hTl, _⟩ := heads_same_data _ s3 hdata b _
      (heads_modifyTime_same _ b (fun T => { T with locked := true }) B hB1)
    dsimp only
    rw [Unlock_ok _ b T hT hTl]
    simp only [Except.map, Except.ok.injEq, Prod.mk.injEq, exists_eq_left']
    constructor
    · rintro ⟨h1, h2⟩
      exact ⟨h1.symm, h2.symm⟩
    · rintro ⟨h1, h2⟩
      exact ⟨h1.symm, h2.symm⟩

theorem chain_first_prev (nx pv : Ptr → Option Ptr) (p q : Ptr) (l : List Nat)
    (h : IsChain nx pv p l q) : pv (firstPtr l q) = some p := by
  cases l with
  | nil => exact h.2
  | cons n l => exact h.2.1

/-- Pushing a live node that is not in the bucket's list appends it. -/
theorem lockPushBack_list (s : State) (b n level index : Nat) (nd : timeNode) (B : Time)
    (l : List Nat) (hn : s.nodes[n]? = some nd) (hB : s.heads[b]? = some B)
    (hfree : B.locked = false) (hlive : nd.stop ≠ haveStop)
    (hl : IsList s b l) (hnl : n ∉ l) :
    ∃ s1 B1 nd1, Time.lockPushBack s b n level index = .ok s1 ∧ IsList s1 b (l ++ [n]) ∧
      s1.heads[b]? = some B1 ∧ B1.locked = false ∧ B1.version = B.version ∧
      s1.nodes[n]? = some nd1 ∧ nd1.list = some b ∧ nd1.version = B.version ∧
      nd1.stop = nd.stop := by
  have hnx : (s.modifyTime b (fun T => { T with locked := true })).next = s.next :=
    next_lock s b true
  have hpv : (s.modifyTime b (fun T => { T with locked := true })).prev = s.prev :=
    prev_lock s b true
  obtain ⟨hlast_nx, hlast_pv⟩ := chain_last s.next s.prev (.time b) (.time b) l hl.1
  have hvb : s.valid (.time b) = true := by
    have := (List.getElem?_eq_some.mp hB).1
    simp [State.valid, this]
  have hvn : s.valid (.node n) = true := by
    have := (List.getElem?_eq_some.mp hn).1
    simp [State.valid, this]
  have hva : s.valid (lastPtr (.time b) l) = true := valid_of_next s _ _ hlast_nx
  obtain ⟨s2, hA⟩ : ∃ s2, list.Head.AddTail (s.modifyTime b (fun T => { T with locked := true }))
      (.time b) (.node n) = .ok s2 := by
    refine ⟨_, (AddTail_ok_iff _ _ _ _).mpr ⟨?_, ?_, lastPtr (.time b) l, ?_, ?_, rfl⟩⟩
    · rw [valid_modifyTime]; exact hvb
    · rw [valid_modifyTime]; exact hvn
    · rw [hpv]; exact hlast_pv
    · rw [valid_modifyTime]; exact hva
  obtain ⟨a, ha, hnx2, hpv2, hdata, _⟩ := AddTail_next _ _ _ _ hA
  rw [hpv, hlast_pv] at ha
  have haeq : a = lastPtr (.time b) l := (Option.some.inj ha).symm
  subst haeq
  rw [hnx] at hnx2
  rw [hpv] at hpv2
  obtain ⟨T, hT, hTl, hTv⟩ := heads_same_data _ s2 hdata b _
    (heads_modifyTime_same s b (fun T => { T with locked := true }) B hB)
  obtain ⟨nd2, hn2, hst, _, _, _, _⟩ := nodes_same_data _ s2 hdata n nd hn
  refine ⟨_, { T with locked := false },
    { nd2 with list := some b, version := B.version },
    (lockPushBack_live_iff s _ b n level index nd B hn hB hfree hlive).mpr ⟨s2, hA, rfl⟩,
    ?_, ?_, rfl, hTv, ?_, rfl, rfl, hst⟩
  · refine ⟨?_, ?_⟩
    · rw [next_lock, prev_lock, next_setOwner, prev_setOwner, hnx2, hpv2]
      exact chain_snoc s.next s.prev (.time b) (.time b) l n hl.1 hl.2 hnl (by simp)
        (fun m _ => by simp) (by simp) (fun m _ => by simp)
    · exact List.Nodup.append hl.2 (List.nodup_singleton n) (by simpa using hnl)
  · exact heads_modifyTime_same _ b _ T hT
  · exact nodes_modifyNode_same _ n _ nd2 hn2

/-- Stop on a node that is in its owner's list, with agreeing versions, takes it
out and leaves the other nodes in their order. -/
theorem Stop_list (s : State) (n b : Nat) (nd : timeNode) (B : Time) (l1 l2 : List Nat)
    (hn : s.nodes[n]? = some nd) (hown : nd.list = some b)
    (hB : s.heads[b]? = some B) (hfree : B.locked = false)
    (hver : nd.version = B.version) (hl : IsList s b (l1 ++ n :: l2)) :
    ∃ s' B' nd', timeNode.Stop s n = .ok (true, s') ∧ IsList s' b (l1 ++ l2) ∧
      s'.heads[b]? = some B' ∧ B'.locked = false ∧ B'.version = B.version ∧
      s'.nodes[n]? = some nd' ∧ nd'.stop = haveStop ∧ nd'.list = some b ∧
      nd'.version = nd.version := by
  have hnx : ((s.modifyNode n (fun x => { x with stop := haveStop })).modifyTime b
      (fun T => { T with locked := true })).next = s.next := by
    rw [next_lock, next_setStop]
  have hpv : ((s.modifyNode n (fun x => { x with stop := haveStop })).modifyTime b
      (fun T => { T with locked := true })).prev = s.prev := by
    rw [prev_lock, prev_setStop]
  have hsplit := (chain_append s.next s.prev (.time b) (.time b) l1 l2 n).mp hl.1
  have ha := (chain_last s.next s.prev (.time b) (.node n) l1 hsplit.1)
  have hc := chain_first s.next s.prev (.node n) (.time b) l2 hsplit.2
  have hcp := chain_first_prev s.next s.prev (.node n) (.time b) l2 hsplit.2
  have hva : s.valid (lastPtr (.time b) l1) = true := valid_of_next s _ _ ha.1
  have hvc : s.valid (firstPtr l2 (.time b)) = true := valid_of_prev s _ _ hcp
  have hB1 : (s.modifyNode n (fun x => { x with stop := haveStop })).heads[b]? = some B := hB
  obtain ⟨s3, hD⟩ : ∃ s3, list.Head.Del
      ((s.modifyNode n (fun x => { x with stop := haveStop })).modifyTime b
        (fun T => { T with locked := true })) (.time b) (.node n) = .ok s3 := by
    refine ⟨_, (Del_ok_iff _ _ _ _).mpr ⟨lastPtr (.time b) l1, firstPtr l2 (.time b),
      ?_, ?_, ?_, ?_, rfl⟩⟩
    · rw [hpv]; exact ha.2
    · rw [hnx]; exact hc
    · rw [valid_modifyTime, valid_modifyNode]; exact hva
    · rw [valid_modifyTime, valid_modifyNode]; exact hvc
  obtain ⟨a, c, ha', hc', hnx3, hpv3, hdata, _⟩ := Del_next _ _ _ _ hD
  rw [hpv] at ha'
  rw [hnx] at hc'
  rw [hnx] at hnx3
  rw [hpv] at hpv3
  obtain ⟨T, hT, hTl, hTv⟩ := heads_same_data _ s3 hdata b _
    (heads_modifyTime_same _ b (fun T => { T with locked := true }) B hB1)
  have hn1 : ((s.modifyNode n (fun x => { x with stop := haveStop })).modifyTime b
      (fun T => { T with locked := true })).nodes[n]? = some { nd with stop := haveStop } :=
    nodes_modifyNode_same s n _ nd hn
  obtain ⟨nd3, hn3, hst, hli, hve, _, _⟩ := nodes_same_data _ s3 hdata n _ hn1
  refine ⟨_, { T with locked := false }, nd3,
    (Stop_match_iff s _ n b true nd B hn hown hB hfree hver).mpr ⟨rfl, s3, hD, rfl⟩,
    ?_, heads_modifyTime_same _ b _ T hT, rfl, hTv, hn3, hst, ?_, hve⟩
  · refine ⟨?_, ?_⟩
    · rw [next_lock, prev_lock, hnx3, hpv3]
      exact chain_del s.next s.prev (.time b) (.time b) a c l1 l2 n hl.1 hl.2
        (fun m _ => by simp) (fun m _ => by simp) ha' hc'
    · have := hl.2
      rw [List.nodup_append] at this ⊢
      refine ⟨this.1, (List.nodup_cons.mp this.2.1).2, ?_⟩
      intro x hx1 hx2
      exact this.2.2 hx1 (by simp [hx2])
  · rw [hli]; exact hown

theorem IsChain_unique (nx pv : Ptr → Option Ptr) (p : Ptr) (b : Nat) (l l' : List Nat)
    (h : IsChain nx pv p l (.time b)) (h' : IsChain nx pv p l' (.time b)) : l = l' := by
  induction l generalizing p l' with
  | nil =>
    cases l' with
    | nil => rfl
    | cons m l' =>
      have h1 := h.1
      rw [h'.1] at h1
      simp at h1
  | cons n l ih =>
    cases l' with
    | nil =>
      have h1 := h.1
      rw [h'.1] at h1
      simp at h1
    | cons m l' =>
      have h1 := h.1
      rw [h'.1] at h1
      have hmn : m = n := by simpa using h1
      subst hmn
      rw [ih (.node m) l' h.2.2 h'.2.2]

/-- A bucket has at most one list. -/
theorem IsList_unique (s : State) (b : Nat) (l l' : List Nat) (h : IsList s b l)
    (h' : IsList s b l') : l = l' :=
  IsChain_unique s.next s.prev (.time b) b l l' h.1 h'.1

/-- C2. If node `n` records bucket `b` as owner and its stored version differs from
the bucket's version, Stop returns false and the heap afterwards is the heap
before with only `n`'s stop flag written: every bucket (links, version, mutex)
and every other field of `n`, its links included, are as they were. -/
theorem Stop_lazy_when_versions_differ (s : State) (n b : Nat) (nd : timeNode) (B : Time)
    (hn : s.nodes[n]? = some nd) (hown : nd.list = some b)
    (hB : s.heads[b]? = some B) (hfree : B.locked = false)
    (hver : nd.version ≠ B.version) :
    timeNode.Stop s n = .ok (false,
      { heads := s.heads, nodes := s.nodes.set n { nd with stop := haveStop },
        wheels := s.wheels }) :=
  Stop_mismatch s n b nd B hn hown hB hfree hver

theorem Stop_lazy_when_versions_differ_witness :
    demoDrained.nodes[0]? = some (nodeIn 0 (genVersionHeight 1 0) (linked (.time 0) (.time 0))) ∧
    demoDrained.heads[0]? =
      some (bucketAt (genVersionHeight 1 0 + 1) (linked (.node 1) (.node 1))) ∧
    genVersionHeight 1 0 ≠ genVersionHeight 1 0 + 1 ∧
    timeNode.Stop demoDrained 0 = .ok (false,
      { heads := demoDrained.heads,
        nodes := demoDrained.nodes.set 0
          { nodeIn 0 (genVersionHeight 1 0) (linked (.time 0) (.time 0)) with stop := haveStop },
        wheels := demoDrained.wheels }) :=
  ⟨rfl, rfl, by decide, Stop_lazy_when_versions_differ demoDrained 0 0
    (nodeIn 0 (genVersionHeight 1 0) (linked (.time 0) (.time 0)))
    (bucketAt (genVersionHeight 1 0 + 1) (linked (.node 1) (.node 1)))
    rfl rfl rfl rfl (by decide)⟩

/-- C3. For a node that has not been stopped, lockPushBack into bucket `b` (whose
list is `l`, the node not yet in it) followed at once by Stop succeeds twice
over: the push returns, Stop returns true, and afterwards the bucket's list is
`l` again, so the node is not in it and a pass over the list does not reach it. -/
theorem push_then_Stop_unlinks (s : State) (b n level index : Nat) (nd : timeNode) (B : Time)
    (l : List Nat) (hn : s.nodes[n]? = some nd) (hlive : nd.stop ≠ haveStop)
    (hB : s.heads[b]? = some B) (hfree : B.locked = false)
    (hl : IsList s b l) (hnl : n ∉ l) :
    ∃ s1 s2, Time.lockPushBack s b n level index = .ok s1 ∧
      timeNode.Stop s1 n = .ok (true, s2) ∧ IsList s2 b l ∧
      ∀ l2, IsList s2 b l2 → n ∉ l2 := by
  obtain ⟨s1, B1, nd1, hpush, hl1, hB1, hfree1, hv1, hn1, hown1, hnv1, _⟩ :=
    lockPushBack_list s b n level index nd B l hn hB hfree hlive hl hnl
  obtain ⟨s2, _, _, hstop, hl2, _⟩ :=
    Stop_list s1 n b nd1 B1 l [] hn1 hown1 hB1 hfree1 (hnv1.trans hv1.symm) hl1
  rw [List.append_nil] at hl2
  refine ⟨s1, s2, hpush, hstop, hl2, ?_⟩
  intro l2 h2
  rw [IsList_unique s2 b l2 l h2 hl2]
  exact hnl

theorem push_then_Stop_unlinks_witness :
    demoLinked.nodes[2]? = some ({} : timeNode) ∧
    demoLinked.heads[0]? = some (bucketAt (genVersionHeight 1 0) (linked (.node 0) (.node 1))) ∧
    IsList demoLinked 0 [0, 1] ∧
    ∃ s1 s2, Time.lockPushBack demoLinked 0 2 1 0 = .ok s1 ∧
      timeNode.Stop s1 2 = .ok (true, s2) ∧ IsList s2 0 [0, 1] ∧
      ∀ l2, IsList s2 0 l2 → 2 ∉ l2 :=
  ⟨rfl, rfl, by decide, push_then_Stop_unlinks demoLinked 0 2 1 0 ({} : timeNode)
    (bucketAt (genVersionHeight 1 0) (linked (.node 0) (.node 1))) [0, 1]
    rfl (by decide) rfl rfl (by decide) (by decide)⟩

/-- C5 as stated fails: node 0 is pushed into bucket 0 and stopped; a later
lockPushBack of node 0 into bucket 1 returns with bucket 1 still empty and node 0
still recording bucket 0 as owner. -/
theorem lockPushBack_stopped_counterexample :
    run demoInit [.push 0 0 1 0, .stop 0] = .ok demoStopped ∧
    Time.lockPushBack demoStopped 1 0 1 1 = .ok demoStopped ∧
    IsList demoStopped 1 [] ∧
    (demoStopped.nodes[0]?).map timeNode.list = some (some 0) :=
  ⟨by decide, by decide, by decide, by decide⟩

/-- C5, amended. For a node whose stop flag is not set, lockPushBack into bucket
`b` (whose list is `l`, the node not yet in it) returns; afterwards the bucket's
list is `l` with the node appended, so the node is its last element, the node's
recorded owner is `b` and its stored version equals the bucket's version, which
is unchanged. -/
theorem lockPushBack_appends_live_node (s : State) (b n level index : Nat) (nd : timeNode)
    (B : Time) (l : List Nat) (hn : s.nodes[n]? = some nd) (hlive : nd.stop ≠ haveStop)
    (hB : s.heads[b]? = some B) (hfree : B.locked = false)
    (hl : IsList s b l) (hnl : n ∉ l) :
    ∃ s1 B1 nd1, Time.lockPushBack s b n level index = .ok s1 ∧
      s1.heads[b]? = some B1 ∧ s1.nodes[n]? = some nd1 ∧
      IsList s1 b (l ++ [n]) ∧ (l ++ [n]).getLast? = some n ∧
      s1.prev (.time b) = some (.node n) ∧ s1.next (.node n) = some (.time b) ∧
      nd1.list = some b ∧ nd1.version = B1.version ∧ B1.version = B.version := by
  obtain ⟨s1, B1, nd1, hpush, hl1, hB1, _, hv1, hn1, hown1, hnv1, _⟩ :=
    lockPushBack_list s b n level index nd B l hn hB hfree hlive hl hnl
  have hlast := chain_last s1.next s1.prev (.time b) (.time b) (l ++ [n]) hl1.1
  rw [lastPtr_append] at hlast
  exact ⟨s1, B1, nd1, hpush, hB1, hn1, hl1, by simp, hlast.2, hlast.1, hown1,
    hnv1.trans hv1.symm, hv1⟩

theorem lockPushBack_appends_live_node_witness :
    demoLinked.nodes[1]? = some (nodeIn 0 (genVersionHeight 1 0) (linked (.time 0) (.node 0))) ∧
    demoLinked.heads[1]? = some (newTimeHead 1 1 1) ∧
    IsList demoLinked 1 [] ∧
    ∃ s1 B1 nd1, Time.lockPushBack demoLinked 1 1 1 1 = .ok s1 ∧
      s1.heads[1]? = some B1 ∧ s1.nodes[1]? = some nd1 ∧
      IsList s1 1 ([] ++ [1]) ∧ ([] ++ [1]).getLast? = some 1 ∧
      s1.prev (.time 1) = some (.node 1) ∧ s1.next (.node 1) = some (.time 1) ∧
      nd1.list = some 1 ∧ nd1.version = B1.version ∧
      B1.version = (newTimeHead 1 1 1).version :=
  ⟨rfl, rfl, by decide, lockPushBack_appends_live_node demoLinked 1 1 1 1
    (nodeIn 0 (genVersionHeight 1 0) (linked (.time 0) (.node 0)))
    (newTimeHead 1 1 1) [] rfl (by decide) rfl rfl (by decide) (by decide)⟩

/-- C4 fails on the code: after node 0 has been pushed into bucket 0, the first
Stop returns true and unlinks it; the second Stop, run on the resulting heap,
finds the stored version still equal to the bucket's, takes the removal branch
again and returns true, not false. -/
theorem Stop_twice_second_returns_true :
    Time.lockPushBack demoInit 0 0 1 0 = .ok demoPushed ∧
    timeNode.Stop demoPushed 0 = .ok (true, demoStopped) ∧
    timeNode.Stop demoStopped 0 = .ok (true, demoStopped) :=
  ⟨by decide, by decide, by decide⟩

/-- C1 fails on the code. Nodes 0 and 1 are pushed into bucket 0, node 1 is
stopped and node 2 is pushed: the list is 0, 2. Node 1 still records bucket 0
as owner and its stored version still equals the bucket's, so a Stop on it
returns true; it hands the stale links of node 1 to `Del`, which joins node 0
and the head: the list is then 0 alone, the other member 2 is gone from it. -/
theorem Stop_on_unlinked_node_drops_member :
    run demoInit [.push 0 0 1 0, .push 0 1 1 0, .stop 1, .push 0 2 1 0] = .ok demoRelinked ∧
    IsList demoRelinked 0 [0, 2] ∧
    (demoRelinked.nodes[1]?).map timeNode.list = some (some 0) ∧
    (demoRelinked.nodes[1]?).map timeNode.version =
      (demoRelinked.heads[0]?).map Time.version ∧
    timeNode.Stop demoRelinked 1 = .ok (true, demoDropped) ∧
    IsList demoDropped 0 [0] :=
  ⟨by decide, by decide, by decide, by decide, by decide, by decide⟩

/-- C6 fails on the code. After node 0 is pushed into bucket 0 and stopped, it
still records bucket 0 as owner and its stored version still equals the
bucket's version, yet the bucket's list is empty. And in the heap of
`demoDropped`, reached by lockPushBack and Stop calls alone, node 2 has never
been stopped, records bucket 0 and carries its version, yet is not in the
bucket's list. -/
theorem version_equal_but_not_linked :
    run demoInit [.push 0 0 1 0, .stop 0] = .ok demoStopped ∧
    (demoStopped.nodes[0]?).map timeNode.list = some (some 0) ∧
    (demoStopped.nodes[0]?).map timeNode.version = (demoStopped.heads[0]?).map Time.version ∧
    IsList demoStopped 0 [] ∧
    run demoInit [.push 0 0 1 0, .push 0 1 1 0, .stop 1, .push 0 2 1 0, .stop 1] =
      .ok demoDropped ∧
    (demoDropped.nodes[2]?).map (fun x => (x.stop, x.list)) = some (0, some 0) ∧
    (demoDropped.nodes[2]?).map timeNode.version = (demoDropped.heads[0]?).map Time.version ∧
    IsList demoDropped 0 [0] :=
  ⟨by decide, by decide, by decide, by decide, by decide, by decide, by decide, by decide⟩

/-! ## The stop flag is never cleared -/

/-- A successful Stop was given a node with an owner whose mutex was free. -/
theorem Stop_ok_inv (s s' : State) (n : Nat) (r : Bool)
    (h : timeNode.Stop s n = .ok (r, s')) :
    ∃ nd b B, s.nodes[n]? = some nd ∧ nd.list = some b ∧ s.heads[b]? = some B ∧
      B.locked = false := by
  unfold timeNode.Stop at h
  cases hn : s.nodes[n]? with
  | none => simp [hn] at h
  | some nd =>
    cases hown : nd.list with
    | none => simp [hn, hown] at h
    | some b =>
      cases hB : s.heads[b]? with
      | none => simp [hn, hown, Time.Lock, State.modifyNode, hB] at h
      | some B =>
        cases hl : B.locked with
        | true => simp [hn, hown, Time.Lock, State.modifyNode, hB, hl] at h
        | false => exact ⟨nd, b, B, rfl, hown, hB, hl⟩

/-- A successful lockPushBack was given a node and a bucket whose mutex was free. -/
theorem lockPushBack_ok_inv (s s' : State) (b n level index : Nat)
    (h : Time.lockPushBack s b n level index = .ok s') :
    ∃ nd B, s.nodes[n]? = some nd ∧ s.heads[b]? = some B ∧ B.locked = false := by
  unfold Time.lockPushBack at h
  cases hB : s.heads[b]? with
  | none => simp [Time.Lock, hB] at h
  | some B =>
    cases hl : B.locked with
    | true => simp [Time.Lock, hB, hl] at h
    | false =>
      cases hn : s.nodes[n]? with
      | none => simp [Time.Lock, hB, hl, State.modifyTime, hn] at h
      | some nd => exact ⟨nd, B, rfl, rfl, hl⟩

/-- What lockPushBack leaves alone in every node: the stop flag, the expire tick
and the wheel. -/
theorem lockPushBack_keeps (s s' : State) (b n level index : Nat)
    (h : Time.lockPushBack s b n level index = .ok s') (m : Nat) (x : timeNode)
    (hm : s.nodes[m]? = some x) :
    ∃ x', s'.nodes[m]? = some x' ∧ x'.stop = x.stop ∧ x'.expire = x.expire ∧
      x'.root = x.root := by
  obtain ⟨nd, B, hn, hB, hfree⟩ := lockPushBack_ok_inv s s' b n level index h
  by_cases hflag : nd.stop = haveStop
  · rw [lockPushBack_stopped s b n level index nd B hn hB hfree hflag] at h
    simp only [Except.ok.injEq] at h
    subst h
    exact ⟨x, hm, rfl, rfl, rfl⟩
  · obtain ⟨s2, hA, rfl⟩ :=
      (lockPushBack_live_iff s s' b n level index nd B hn hB hfree hflag).mp h
    obtain ⟨_, _, _, _, hdata, _⟩ := AddTail_next _ _ _ _ hA
    have hm1 : (s.modifyTime b (fun T => { T with locked := true })).nodes[m]? = some x := hm
    obtain ⟨x2, hx2, hst, _, _, hro, hex⟩ := nodes_same_data _ s2 hdata m x hm1
    by_cases hnm : n = m
    · subst hnm
      refine ⟨_, nodes_modifyNode_same s2 n _ x2 hx2, hst, hex, hro⟩
    · refine ⟨x2, ?_, hst, hex, hro⟩
      simp only [State.modifyTime, State.modifyNode, List.getElem?_modify_ne _ _ hnm]
      exact hx2

/-- After a Stop that returned, the node carries the stop flag. -/
theorem Stop_sets_flag (s s' : State) (n : Nat) (r : Bool)
    (h : timeNode.Stop s n = .ok (r, s')) :
    ∃ nd', s'.nodes[n]? = some nd' ∧ nd'.stop = haveStop := by
  obtain ⟨nd, b, B, hn, hown, hB, hfree⟩ := Stop_ok_inv s s' n r h
  by_cases hver : nd.version = B.version
  · obtain ⟨_, s3, hD, rfl⟩ := (Stop_match_iff s s' n b r nd B hn hown hB hfree hver).mp h
    obtain ⟨_, _, _, _, _, _, hdata, _⟩ := Del_next _ _ _ _ hD
    have hn1 : ((s.modifyNode n (fun x => { x with stop := haveStop })).modifyTime b
        (fun T => { T with locked := true })).nodes[n]? = some { nd with stop := haveStop } :=
      nodes_modifyNode_same s n _ nd hn
    obtain ⟨nd3, hn3, hst, _⟩ := nodes_same_data _ s3 hdata n _ hn1
    exact ⟨nd3, hn3, hst⟩
  · rw [Stop_mismatch s n b nd B hn hown hB hfree hver] at h
    simp only [Except.ok.injEq, Prod.mk.injEq] at h
    refine ⟨{ nd with stop := haveStop }, ?_, rfl⟩
    rw [← h.2]
    have hlt := (List.getElem?_eq_some.mp hn).1
    simp [hlt]

/-- What Stop leaves alone in every other node: the stop flag. -/
theorem Stop_keeps (s s' : State) (n : Nat) (r : Bool)
    (h : timeNode.Stop s n = .ok (r, s')) (m : Nat) (hnm : n ≠ m) (x : timeNode)
    (hm : s.nodes[m]? = some x) :
    ∃ x', s'.nodes[m]? = some x' ∧ x'.stop = x.stop := by
  obtain ⟨nd, b, B, hn, hown, hB, hfree⟩ := Stop_ok_inv s s' n r h
  by_cases hver : nd.version = B.version
  · obtain ⟨_, s3, hD, rfl⟩ := (Stop_match_iff s s' n b r nd B hn hown hB hfree hver).mp h
    obtain ⟨_, _, _, _, _, _, hdata, _⟩ := Del_next _ _ _ _ hD
    have hm1 : ((s.modifyNode n (fun x => { x with stop := haveStop })).modifyTime b
        (fun T => { T with locked := true })).nodes[m]? = some x := by
      simp only [State.modifyTime, State.modifyNode, List.getElem?_modify_ne _ _ hnm]
      exact hm
    obtain ⟨x3, hx3, hst, _⟩ := nodes_same_data _ s3 hdata m _ hm1
    exact ⟨x3, hx3, hst⟩
  · rw [Stop_mismatch s n b nd B hn hown hB hfree hver] at h
    simp only [Except.ok.injEq, Prod.mk.injEq] at h
    refine ⟨x, ?_, rfl⟩
    rw [← h.2]
    simp only
    rw [List.getElem?_set_ne hnm]
    exact hm

/-- The stop flag, once set, survives every later lockPushBack and Stop. -/
theorem stop_flag_step (s s' : State) (op : Op) (n : Nat)
    (hflag : ∃ nd, s.nodes[n]? = some nd ∧ nd.stop = haveStop)
    (h : step s op = .ok s') :
    ∃ nd, s'.nodes[n]? = some nd ∧ nd.stop = haveStop := by
  obtain ⟨nd, hn, hst⟩ := hflag
  cases op with
  | push t m level index =>
    simp only [step] at h
    obtain ⟨x', hx', hs', _⟩ := lockPushBack_keeps s s' t m level index h n nd hn
    exact ⟨x', hx', hs'.trans hst⟩
  | stop m =>
    simp only [step] at h
    cases hS : timeNode.Stop s m with
    | error e => simp [hS, Except.map] at h
    | ok p =>
      obtain ⟨r, s1⟩ := p
      simp only [hS, Except.map, Except.ok.injEq] at h
      subst h
      by_cases hmn : m = n
      · subst hmn
        exact Stop_sets_flag s s1 m r hS
      · obtain ⟨x', hx', hs'⟩ := Stop_keeps s s1 m r hS n hmn nd hn
        exact ⟨x', hx', hs'.trans hst⟩

theorem stop_flag_run (ops : List Op) (s s' : State) (n : Nat)
    (hflag : ∃ nd, s.nodes[n]? = some nd ∧ nd.stop = haveStop)
    (h : run s ops = .ok s') :
    ∃ nd, s'.nodes[n]? = some nd ∧ nd.stop = haveStop := by
  induction ops generalizing s with
  | nil =>
    simp only [run, Except.ok.injEq] at h
    subst h
    exact hflag
  | cons op ops ih =>
    simp only [run] at h
    cases hS : step s op with
    | error e => simp [hS] at h
    | ok s1 =>
      simp only [hS] at h
      exact ih s1 (stop_flag_step s s1 op n hflag hS) h

/-- C10. Once Stop has returned on a node (with either result), then after any
further run of lockPushBack and Stop calls a lockPushBack of that node into any
bucket returns with the heap exactly as it was: no link, no version, no field of
the node changes. -/
theorem lockPushBack_after_Stop_is_noop (s0 s1 s : State) (ops : List Op)
    (n b level index : Nat) (r : Bool) (B : Time)
    (hstop : timeNode.Stop s0 n = .ok (r, s1)) (hrun : run s1 ops = .ok s)
    (hB : s.heads[b]? = some B) (hfree : B.locked = false) :
    Time.lockPushBack s b n level index = .ok s := by
  obtain ⟨nd', hn', hflag⟩ := stop_flag_run ops s1 s n (Stop_sets_flag s0 s1 n r hstop) hrun
  exact lockPushBack_stopped s b n level index nd' B hn' hB hfree hflag

theorem lockPushBack_after_Stop_is_noop_witness :
    timeNode.Stop demoDrained 0 = .ok (false, demoDrainedLazy) ∧
    run demoDrainedLazy [.stop 1] = .ok demoDrainedStopped ∧
    Time.lockPushBack demoDrainedStopped 1 0 1 1 = .ok demoDrainedStopped :=
  ⟨by decide, by decide,
    lockPushBack_after_Stop_is_noop demoDrained demoDrainedLazy demoDrainedStopped [.stop 1]
      0 1 1 1 false (newTimeHead 1 1 1) (by decide) (by decide) rfl rfl⟩

/-! ## The version word -/

theorem genVersionHeight_eq (level index : Nat) (hl : level < 2 ^ 16) (hi : index < 2 ^ 16) :
    genVersionHeight level index = level * 2 ^ 48 + index * 2 ^ 32 := by
  have h1 : level * 2 ^ 48 < 2 ^ 64 := by omega
  have h2 : index * 2 ^ 32 < 2 ^ 48 := by omega
  have h3 : index * 2 ^ 32 < 2 ^ 64 := by omega
  unfold genVersionHeight word64
  rw [Nat.shiftLeft_eq, Nat.shiftLeft_eq, Nat.mod_eq_of_lt h1, Nat.mod_eq_of_lt h3,
    Nat.mul_comm level (2 ^ 48)]
  exact (Nat.mul_add_lt_is_or h2 level).symm

/-- C7. For level and index below 2^16 the version stored by newTimeHead (wherever
the new bucket is allocated) is a 64-bit word whose top 16 bits are level, whose
next 16 bits are index and whose low 32 bits are zero; two pairs in that range
with the same initial version are the same pair. -/
theorem newTimeHead_version_layout (addr level index : Nat) (hl : level < 2 ^ 16)
    (hi : index < 2 ^ 16) :
    (newTimeHead addr level index).version = genVersionHeight level index ∧
    (newTimeHead addr level index).version < 2 ^ 64 ∧
    (newTimeHead addr level index).version >>> 48 = level ∧
    ((newTimeHead addr level index).version >>> 32) % 2 ^ 16 = index ∧
    (newTimeHead addr level index).version % 2 ^ 32 = 0 ∧
    ∀ addr2 level2 index2 : Nat, level2 < 2 ^ 16 → index2 < 2 ^ 16 →
      (newTimeHead addr2 level2 index2).version = (newTimeHead addr level index).version →
      level2 = level ∧ index2 = index := by
  have hv : (newTimeHead addr level index).version = level * 2 ^ 48 + index * 2 ^ 32 :=
    genVersionHeight_eq level index hl hi
  refine ⟨rfl, ?_, ?_, ?_, ?_, ?_⟩
  · rw [hv]; omega
  · rw [hv, Nat.shiftRight_eq_div_pow]; omega
  · rw [hv, Nat.shiftRight_eq_div_pow]; omega
  · rw [hv]; omega
  · intro addr2 level2 index2 hl2 hi2 heq
    have hv2 : (newTimeHead addr2 level2 index2).version =
        level2 * 2 ^ 48 + index2 * 2 ^ 32 :=
      genVersionHeight_eq level2 index2 hl2 hi2
    rw [hv, hv2] at heq
    omega

theorem newTimeHead_version_layout_witness :
    (3 : Nat) < 2 ^ 16 ∧ (5 : Nat) < 2 ^ 16 ∧
    ((newTimeHead 0 3 5).version = genVersionHeight 3 5 ∧
    (newTimeHead 0 3 5).version < 2 ^ 64 ∧
    (newTimeHead 0 3 5).version >>> 48 = 3 ∧
    ((newTimeHead 0 3 5).version >>> 32) % 2 ^ 16 = 5 ∧
    (newTimeHead 0 3 5).version % 2 ^ 32 = 0 ∧
    ∀ addr2 level2 index2 : Nat, level2 < 2 ^ 16 → index2 < 2 ^ 16 →
      (newTimeHead addr2 level2 index2).version = (newTimeHead 0 3 5).version →
      level2 = 3 ∧ index2 = 5) :=
  ⟨by decide, by decide, newTimeHead_version_layout 0 3 5 (by decide) (by decide)⟩

/-! ## Reset -/

theorem resetExpire_truncates (d : Int) (j : Nat) (hd : 0 ≤ d)
    (hj : (j : Int) + d / 10000000 < 2 ^ 63) :
    (resetExpire d j : Int) = (j : Int) + d / 10000000 := by
  have hq : 0 ≤ d / 10000000 := Int.ediv_nonneg hd (by decide)
  have ht : Int.tdiv d tenMilliseconds = d / 10000000 := by
    unfold tenMilliseconds
    rw [Int.tdiv_eq_ediv hd (by decide)]
    rfl
  have hjlt : j < 2 ^ 63 := by omega
  have hjmod : j % word64 = j := Nat.mod_eq_of_lt (by unfold word64; omega)
  have hjj : toInt64 j = (j : Int) := by
    unfold toInt64
    rw [hjmod, if_pos hjlt]
  unfold resetExpire
  rw [ht, hjj]
  generalize hx : d / 10000000 + (j : Int) = x
  have hx0 : 0 ≤ x := by omega
  have hx1 : x < 2 ^ 63 := by omega
  have hxm : x % (2 : Int) ^ 64 = x := Int.emod_eq_of_lt hx0 (by omega)
  have hw : wrapInt64 x = x := by
    unfold wrapInt64 toInt64
    rw [hxm]
    have hn : x.toNat % word64 = x.toNat := Nat.mod_eq_of_lt (by unfold word64; omega)
    rw [hn]
    have hlt : x.toNat < 2 ^ 63 := by omega
    rw [if_pos hlt]
    omega
  unfold toUint64
  rw [hw, hxm]
  omega

/-- Reset up to the call of `t.root.add`: the owner is locked, `Del` is run on the
node's links and the node's expire tick is rewritten; the insertion follows
with the owner's mutex still held. -/
theorem Reset_eq (slot : Nat → Nat → Nat × Nat × Nat) (s : State) (n b w : Nat) (d : Int)
    (nd : timeNode) (B : Time) (W : timeWheel)
    (hn : s.nodes[n]? = some nd) (hown : nd.list = some b)
    (hB : s.heads[b]? = some B) (hfree : B.locked = false)
    (hroot : nd.root = some w) (hW : s.wheels[w]? = some W) :
    timeNode.Reset slot s n d =
      match list.Head.Del (s.modifyTime b (fun T => { T with locked := true }))
          (.time b) (.node n) with
      | .error e => .error e
      | .ok s2 =>
        match Time.lockPushBack
            (s2.modifyNode n (fun x => { x with expire := resetExpire d W.jiffies }))
            (slot (resetExpire d W.jiffies) W.jiffies).1 n
            (slot (resetExpire d W.jiffies) W.jiffies).2.1
            (slot (resetExpire d W.jiffies) W.jiffies).2.2 with
        | .error e => .error e
        | .ok s4 => (Time.Unlock s4 b).map (fun s5 => (true, s5)) := by
  unfold timeNode.Reset
  simp only [hn, hown]
  rw [Lock_ok s b B hB hfree]
  dsimp only
  cases hD : list.Head.Del (s.modifyTime b (fun T => { T with locked := true }))
      (.time b) (.node n) with
  | error e => rfl
  | ok s2 =>
    obtain ⟨_, _, _, _, _, _, hdata, _⟩ := Del_next _ _ _ _ hD
    have hw2 : s2.wheels = s.wheels := by
      have := wheels_of_data _ s2 hdata
      exact this
    have hn1 : (s.modifyTime b (fun T => { T with locked := true })).nodes[n]? = some nd := hn
    obtain ⟨nd2, hn2, _⟩ := nodes_same_data _ s2 hdata n nd hn1
    have hn3 : (s2.modifyNode n (fun x => { x with expire := resetExpire d W.jiffies })).nodes[n]?
        = some { nd2 with expire := resetExpire d W.jiffies } :=
      nodes_modifyNode_same s2 n _ nd2 hn2
    simp only [hroot, hw2, hW, timeWheel.add, hn3]

/-- When the wheel's destination for the new expire tick is the node's current
owner and the node's links lead somewhere, Reset never returns: `lockPushBack`
locks the mutex Reset still holds. -/
theorem Reset_blocks_on_owner (slot : Nat → Nat → Nat × Nat × Nat) (s : State) (n b w : Nat)
    (d : Int) (nd : timeNode) (B : Time) (W : timeWheel) (x y : Ptr)
    (hn : s.nodes[n]? = some nd) (hown : nd.list = some b)
    (hB : s.heads[b]? = some B) (hfree : B.locked = false)
    (hroot : nd.root = some w) (hW : s.wheels[w]? = some W)
    (hx : s.next (.node n) = some x) (hvx : s.valid x = true)
    (hy : s.prev (.node n) = some y) (hvy : s.valid y = true)
    (hdest : (slot (resetExpire d W.jiffies) W.jiffies).1 = b) :
    timeNode.Reset slot s n d = .error .deadlock := by
  rw [Reset_eq slot s n b w d nd B W hn hown hB hfree hroot hW, hdest]
  have hD : list.Head.Del (s.modifyTime b (fun T => { T with locked := true }))
      (.time b) (.node n) = .ok (((s.modifyTime b (fun T => { T with locked := true })).writePrev
        x (some y)).writeNext y (some x)) := by
    refine (Del_ok_iff _ _ _ _).mpr ⟨y, x, ?_, ?_, ?_, ?_, rfl⟩
    · rw [prev_lock]; exact hy
    · rw [next_lock]; exact hx
    · rw [valid_modifyTime]; exact hvy
    · rw [valid_modifyTime]; exact hvx
  rw [hD]
  obtain ⟨_, _, _, _, _, _, hdata, _⟩ := Del_next _ _ _ _ hD
  obtain ⟨T, hT, hTl, _⟩ := heads_same_data _ _ hdata b _
    (heads_modifyTime_same s b (fun T => { T with locked := true }) B hB)
  have hT3 : ((((s.modifyTime b (fun T => { T with locked := true })).writePrev
      x (some y)).writeNext y (some x)).modifyNode n
      (fun x => { x with expire := resetExpire d W.jiffies })).heads[b]? = some T := hT
  have hTl' : T.locked = true := hTl
  simp [Time.lockPushBack, Time.Lock, hT3, hTl']

/-- Whatever the layout of the wheel: a live node that the wheel has just inserted
for expire tick `e` at tick `j` blocks in Reset when the new duration gives the
same expire tick at the same tick `j`. -/
theorem add_then_Reset_blocks (slot : Nat → Nat → Nat × Nat × Nat) (s s1 : State)
    (n w : Nat) (d : Int) (nd : timeNode) (W : timeWheel)
    (hn : s.nodes[n]? = some nd) (hlive : nd.stop ≠ haveStop)
    (hroot : nd.root = some w) (hW : s.wheels[w]? = some W)
    (hexp : nd.expire = resetExpire d W.jiffies)
    (hadd : timeWheel.add slot s n W.jiffies = .ok s1) :
    timeNode.Reset slot s1 n d = .error .deadlock := by
  simp only [timeWheel.add, hn] at hadd
  have hdest : (slot (resetExpire d W.jiffies) W.jiffies).1 = (slot nd.expire W.jiffies).1 := by
    rw [hexp]
  generalize (slot nd.expire W.jiffies).1 = c at hadd hdest
  generalize (slot nd.expire W.jiffies).2.1 = lv at hadd
  generalize (slot nd.expire W.jiffies).2.2 = ix at hadd
  obtain ⟨nd0, B, hn0, hB, hfree⟩ := lockPushBack_ok_inv s s1 c n lv ix hadd
  rw [hn] at hn0
  simp only [Option.some.injEq] at hn0
  subst hn0
  obtain ⟨s2, hA, rfl⟩ := (lockPushBack_live_iff s s1 c n lv ix nd B hn hB hfree hlive).mp hadd
  obtain ⟨hvh, hvn, _⟩ := (AddTail_ok_iff _ _ _ _).mp hA
  obtain ⟨a, ha, hnx2, hpv2, hdata, hval⟩ := AddTail_next _ _ _ _ hA
  have hva : s.valid a = true := by
    have := valid_of_next s2 a (.node n) (by rw [hnx2]; simp)
    rw [hval, valid_modifyTime] at this
    exact this
  rw [valid_modifyTime] at hvh hvn
  rw [next_lock] at hnx2
  rw [prev_lock] at hpv2
  have hn1 : (s.modifyTime c (fun T => { T with locked := true })).nodes[n]? = some nd := hn
  obtain ⟨nd2, hn2, _, _, _, hro, _⟩ := nodes_same_data _ s2 hdata n nd hn1
  obtain ⟨T, hT, _, _⟩ := heads_same_data _ s2 hdata c _
    (heads_modifyTime_same s c (fun T => { T with locked := true }) B hB)
  have hw2 : s2.wheels = s.wheels := by
    have := wheels_of_data _ s2 hdata
    exact this
  have hvalid : ∀ p, ((s2.modifyNode n (fun x => { x with list := some c, version := B.version })).modifyTime c
      (fun T => { T with locked := false })).valid p =
      s.valid p := by
    intro p
    rw [valid_modifyTime, valid_modifyNode, hval, valid_modifyTime]
  have hnxF : ((s2.modifyNode n (fun x => { x with list := some c, version := B.version })).modifyTime c
      (fun T => { T with locked := false })).next =
      s2.next := by
    rw [next_lock, next_setOwner]
  have hpvF : ((s2.modifyNode n (fun x => { x with list := some c, version := B.version })).modifyTime c
      (fun T => { T with locked := false })).prev =
      s2.prev := by
    rw [prev_lock, prev_setOwner]
  refine Reset_blocks_on_owner slot _ n c w d
    { nd2 with list := some c, version := B.version } { T with locked := false } W
    (if a = .node n then .node n else .time c) a
    (nodes_modifyNode_same s2 n _ nd2 hn2) rfl (heads_modifyTime_same _ _ _ T hT) rfl
    (hro.trans hroot) (by show s2.wheels[w]? = some W; rw [hw2]; exact hW)
    ?_ ?_ ?_ ?_ hdest
  · rw [hnxF, hnx2]
    by_cases h : a = .node n
    · rw [if_pos h, h, Function.update_same]
    · rw [if_neg h, Function.update_noteq (Ne.symm h), Function.update_same]
  · rw [hvalid]
    by_cases h : a = .node n
    · rw [if_pos h]; exact hvn
    · rw [if_neg h]; exact hvh
  · rw [hpvF, hpv2, Function.update_same]
  · rw [hvalid]; exact hva

/-- A lockPushBack returns whenever the node and the bucket exist, the bucket's
mutex is free and the head's `Prev` link leads somewhere. -/
theorem lockPushBack_returns (s : State) (c n level index : Nat) (nd : timeNode) (C : Time)
    (z : Ptr) (hn : s.nodes[n]? = some nd) (hC : s.heads[c]? = some C)
    (hfree : C.locked = false) (hz : s.prev (.time c) = some z) (hvz : s.valid z = true) :
    ∃ s', Time.lockPushBack s c n level index = .ok s' := by
  by_cases hflag : nd.stop = haveStop
  · exact ⟨s, lockPushBack_stopped s c n level index nd C hn hC hfree hflag⟩
  · refine ⟨_, (lockPushBack_live_iff s _ c n level index nd C hn hC hfree hflag).mpr
      ⟨_, (AddTail_ok_iff _ _ _ _).mpr ⟨?_, ?_, z, ?_, ?_, rfl⟩, rfl⟩⟩
    · rw [valid_modifyTime]
      have := (List.getElem?_eq_some.mp hC).1
      simp [State.valid, this]
    · rw [valid_modifyTime]
      have := (List.getElem?_eq_some.mp hn).1
      simp [State.valid, this]
    · rw [prev_lock]; exact hz
    · rw [valid_modifyTime]; exact hvz

/-- What lockPushBack into bucket `c` leaves alone in every other bucket: the mutex. -/
theorem lockPushBack_keeps_mutex (s s' : State) (c n level index : Nat)
    (h : Time.lockPushBack s c n level index = .ok s') (b : Nat) (hcb : c ≠ b) (T : Time)
    (hT : s.heads[b]? = some T) :
    ∃ T', s'.heads[b]? = some T' ∧ T'.locked = T.locked := by
  obtain ⟨nd, C, hn, hC, hfree⟩ := lockPushBack_ok_inv s s' c n level index h
  by_cases hflag : nd.stop = haveStop
  · rw [lockPushBack_stopped s c n level index nd C hn hC hfree hflag] at h
    simp only [Except.ok.injEq] at h
    subst h
    exact ⟨T, hT, rfl⟩
  · obtain ⟨s2, hA, rfl⟩ :=
      (lockPushBack_live_iff s s' c n level index nd C hn hC hfree hflag).mp h
    obtain ⟨_, _, _, _, hdata, _⟩ := AddTail_next _ _ _ _ hA
    have hT1 : (s.modifyTime c (fun T => { T with locked := true })).heads[b]? = some T := by
      simp only [State.modifyTime, List.getElem?_modify_ne _ _ hcb]
      exact hT
    obtain ⟨T2, hT2, hl2, _⟩ := heads_same_data _ s2 hdata b T hT1
    refine ⟨T2, ?_, hl2⟩
    simp only [State.modifyTime, State.modifyNode, List.getElem?_modify_ne _ _ hcb]
    exact hT2

/-- When the wheel's destination is another bucket (with a free mutex) and the
links that are followed lead somewhere, Reset returns true and the node's
expire tick is the current tick plus the duration in whole ticks, truncated. -/
theorem Reset_returns_on_other_bucket (slot : Nat → Nat → Nat × Nat × Nat) (s : State)
    (n b c w : Nat) (d : Int) (nd : timeNode) (B C : Time) (W : timeWheel) (x y z : Ptr)
    (hn : s.nodes[n]? = some nd) (hown : nd.list = some b)
    (hB : s.heads[b]? = some B) (hfree : B.locked = false)
    (hroot : nd.root = some w) (hW : s.wheels[w]? = some W)
    (hd : 0 ≤ d) (hj : (W.jiffies : Int) + d / 10000000 < 2 ^ 63)
    (hdest : (slot (resetExpire d W.jiffies) W.jiffies).1 = c) (hcb : c ≠ b)
    (hC : s.heads[c]? = some C) (hCfree : C.locked = false)
    (hx : s.next (.node n) = some x) (hvx : s.valid x = true)
    (hy : s.prev (.node n) = some y) (hvy : s.valid y = true)
    (hz : s.prev (.time c) = some z) (hvz : s.valid z = true) :
    ∃ s' nd', timeNode.Reset slot s n d = .ok (true, s') ∧ s'.nodes[n]? = some nd' ∧
      (nd'.expire : Int) = (W.jiffies : Int) + d / 10000000 := by
  rw [Reset_eq slot s n b w d nd B W hn hown hB hfree hroot hW, hdest]
  have hD : list.Head.Del (s.modifyTime b (fun T => { T with locked := true }))
      (.time b) (.node n) = .ok (((s.modifyTime b (fun T => { T with locked := true })).writePrev
        x (some y)).writeNext y (some x)) := by
    refine (Del_ok_iff _ _ _ _).mpr ⟨y, x, ?_, ?_, ?_, ?_, rfl⟩
    · rw [prev_lock]; exact hy
    · rw [next_lock]; exact hx
    · rw [valid_modifyTime]; exact hvy
    · rw [valid_modifyTime]; exact hvx
  rw [hD]
  obtain ⟨y', x', hy', hx', _, hpv2, hdata, hval⟩ := Del_next _ _ _ _ hD
  rw [prev_lock, hy] at hy'
  rw [next_lock, hx] at hx'
  have hyy : y' = y := (Option.some.inj hy').symm
  have hxx : x' = x := (Option.some.inj hx').symm
  subst hyy hxx
  generalize ((s.modifyTime b (fun T => { T with locked := true })).writePrev
    x' (some y')).writeNext y' (some x') = s2 at hpv2 hdata hval ⊢
  rw [prev_lock] at hpv2
  dsimp only
  have hn1 : (s.modifyTime b (fun T => { T with locked := true })).nodes[n]? = some nd := hn
  obtain ⟨nd2, hn2, _⟩ := nodes_same_data _ s2 hdata n nd hn1
  have hB1 := heads_modifyTime_same s b (fun T => { T with locked := true }) B hB
  obtain ⟨T, hT, hTl, _⟩ := heads_same_data _ s2 hdata b _ hB1
  have hC1 : (s.modifyTime b (fun T => { T with locked := true })).heads[c]? = some C := by
    simp only [State.modifyTime, List.getElem?_modify_ne _ _ (Ne.symm hcb)]
    exact hC
  obtain ⟨C2, hC2, hC2l, _⟩ := heads_same_data _ s2 hdata c _ hC1
  have hn3 : (s2.modifyNode n (fun x => { x with expire := resetExpire d W.jiffies })).nodes[n]?
      = some { nd2 with expire := resetExpire d W.jiffies } :=
    nodes_modifyNode_same s2 n _ nd2 hn2
  have hz3 : ∃ z', (s2.modifyNode n (fun x => { x with expire := resetExpire d W.jiffies })).prev
      (.time c) = some z' ∧ (s2.modifyNode n (fun x =>
        { x with expire := resetExpire d W.jiffies })).valid z' = true := by
    rw [prev_setExpire, hpv2]
    by_cases h : Ptr.time c = x'
    · refine ⟨y', by rw [h, Function.update_same], ?_⟩
      rw [valid_modifyNode, hval, valid_modifyTime]; exact hvy
    · refine ⟨z, by rw [Function.update_noteq h]; exact hz, ?_⟩
      rw [valid_modifyNode, hval, valid_modifyTime]; exact hvz
  obtain ⟨z', hz', hvz'⟩ := hz3
  obtain ⟨s4, h4⟩ := lockPushBack_returns
    (s2.modifyNode n (fun x => { x with expire := resetExpire d W.jiffies })) c n
    (slot (resetExpire d W.jiffies) W.jiffies).2.1 (slot (resetExpire d W.jiffies) W.jiffies).2.2
    _ C2 z' hn3 hC2 (hC2l.trans hCfree) hz' hvz'
  rw [h4]
  obtain ⟨nd4, hn4, _, hex4, _⟩ := lockPushBack_keeps _ s4 c n _ _ h4 n _ hn3
  obtain ⟨T4, hT4, hT4l⟩ := lockPushBack_keeps_mutex _ s4 c n _ _ h4 b hcb T hT
  have hheld : T4.locked = true := hT4l.trans hTl
  dsimp only
  rw [Unlock_ok s4 b T4 hT4 hheld]
  refine ⟨_, nd4, rfl, hn4, ?_⟩
  rw [hex4]
  exact resetExpire_truncates d W.jiffies hd hj

/-- C8 fails on the code. A timer of 25ms created at tick 0 has expire tick 2 and
the wheel inserts it into the bucket for tick 2. Reset(25ms) at the same tick
computes expire tick 2 again, so `t.root.add` pushes into the bucket whose mutex
Reset still holds, and the call blocks instead of returning true. -/
theorem Reset_same_bucket_never_returns :
    timeWheel.add demoSlot demoWheelNew 0 0 = .ok demoWheelScheduled ∧
    resetExpire 25000000 0 = 2 ∧
    timeNode.Reset demoSlot demoWheelScheduled 0 25000000 = .error .deadlock :=
  ⟨by decide, by decide, by decide⟩

end TimeWheel
